import Mathlib

/-!
# Verification of the Search_engine hybrid ranking pipeline

A shallow embedding of the clustering-mode search pipeline of the
`Search_engine` repository (`search_engine.py`, `semantic_search.py`,
`clustering.py`, and their refactored counterparts under
`src/core/search_engine.py`, `src/search/semantic_search.py`,
`src/models/clustering_manager.py`, `src/utils/config.py`), together with
theorems settling the specification's claims about it.

Modelling conventions:
* Machine floats are modelled by exact rationals `ℚ`; vectors by `List ℚ`.
* The sentence-transformer encoders are external artifacts; the embedding
  takes already-encoded query vectors as inputs.
* All stored embeddings and query encodings are produced with
  `normalize_embeddings=True` (`embeddings.py`, `embedding_manager.py`),
  so `torch.cosine_similarity` on them equals the dot product of unit
  vectors; the per-row similarity kernel is modelled by the dot product.
* Python `dict` lookups that can raise `KeyError`, and other raising
  operations, are modelled with `Option`/`Except`: `none`/`.error` is the
  raised exception.
* Loops are modelled by structural recursion, with explicit fuel where the
  measure is not structural, so that every definition evaluates by kernel
  reduction on concrete inputs.
-/

/-- An embedding vector (a row of a torch tensor), as exact rationals. -/
abbrev Vec := List ℚ

/-- A post row: the `Id` and `ParentId` columns of the `posts` DataFrame.
`ParentId` is `NaN` (here `none`) for root/question posts. -/
structure Post where
  id : Int
  parentId : Option Int
  deriving DecidableEq, Repr, Inhabited

/-- The per-row similarity kernel: `torch.cosine_similarity` between the
query embedding and one stored embedding.  Both are L2-normalized at
creation (`encode_query` and `save_embeddings` pass
`normalize_embeddings=True`), so the cosine equals the dot product. -/
def cosineSim (q v : Vec) : ℚ :=
  (List.zipWith (· * ·) q v).sum

/-- Fuelled worker for `chunksPos`; the fuel is an upper bound on the list
length, so the zero-fuel branch is never reached in `chunksPos`. -/
def chunksFuel (b : ℕ) : ℕ → List α → List (List α)
  | 0, _ => []
  | _, [] => []
  | fuel + 1, x :: xs => (x :: xs.take b) :: chunksFuel b fuel (xs.drop b)

/-- Split a list into consecutive chunks of size `b+1`: the slices
`xs[i:i+batch_size]` taken by the loop `for i in range(0, len(xs), batch_size)`.
The `b+1` form keeps the chunk size positive (Python's `range` rejects a
zero step with `ValueError`; the zero case is handled by the callers). -/
def chunksPos (b : ℕ) (l : List α) : List (List α) :=
  chunksFuel b l.length l

/-- The batched scoring loop shared by `similarity`,
`similarity_clustering` and `similarities_title_clustering`:
`for i in range(0, len(vecs), batch_size): scores.extend(cosine(query, stack(vecs[i:i+batch_size])))`.
The batch size is `b + 1`. -/
def batchedScores (qe : Vec) (b : ℕ) (vecs : List Vec) : List ℚ :=
  ((chunksPos b vecs).map (fun c => c.map (cosineSim qe))).flatten

/-- `semantic_search.similarity(query, model, embeddings, batch_size)`:
batched cosine similarity of the query against a list of embeddings,
in list order.  `none` models the `ValueError` raised by
`range(0, n, 0)` when `batch_size` is zero. -/
def similarity (qe : Vec) (vecs : List Vec) (batchSize : ℕ) : Option (List ℚ) :=
  match batchSize with
  | 0 => none
  | b + 1 => some (batchedScores qe b vecs)

/-- Resolve every id in the embedding dict; a missing key is Python's
`KeyError`, modelled as `none`.  This is the dict/list comprehension
`{post_id: embeddings[post_id] for post_id in relevant_ids}` /
`[embeddings[post_id] for post_id in relevant_ids]` (post ids are unique,
so the dict's values in insertion order are exactly this list). -/
def lookupAll (embeddings : List (Int × Vec)) : List Int → Option (List Vec)
  | [] => some []
  | i :: is =>
    match embeddings.lookup i with
    | none => none
    | some v => (lookupAll embeddings is).map (fun vs => v :: vs)

/-- `SemanticSearch.similarity_clustering(query, model, relevant_posts, embeddings, batch_size)`
(`src/search/semantic_search.py`): resolve every candidate `Id` in the
answer-space embedding dict (`KeyError` on a missing id), raise
`ValueError` if the filtered dict is empty, then score in batches. -/
def similarity_clustering (qe : Vec) (relevantIds : List Int)
    (embeddings : List (Int × Vec)) (batchSize : ℕ) : Option (List ℚ) :=
  match lookupAll embeddings relevantIds with
  | none => none
  | some vecs =>
    if vecs.isEmpty then none
    else similarity qe vecs batchSize

/-- `SemanticSearch.similarities_title_clustering(query, model, relevant_posts, embeddings, batch_size)`
(`src/search/semantic_search.py`): resolve every candidate `Id` in the
title-space embedding dict (`KeyError` on a missing id), then score in
batches.  The lookup key is the candidate's own `Id`; no `ParentId`
resolution occurs in this function (the resolution code present in
`similarities_title` is absent here, and commented out in the flat
`search_engine.py` copy). -/
def similarities_title_clustering (qe : Vec) (relevantIds : List Int)
    (embeddings : List (Int × Vec)) (batchSize : ℕ) : Option (List ℚ) :=
  match lookupAll embeddings relevantIds with
  | none => none
  | some vecs => similarity qe vecs batchSize

/-- The title-space lookup as §4.3 of the spec states it, for comparison
with `similarities_title_clustering`: a candidate with a non-null
`parent_id` is scored from its parent's title embedding, a root candidate
from its own. -/
def titleScoresSpec (qe : Vec) (relevantPosts : List Post)
    (embeddings : List (Int × Vec)) (batchSize : ℕ) : Option (List ℚ) :=
  match lookupAll embeddings (relevantPosts.map (fun p => p.parentId.getD p.id)) with
  | none => none
  | some vecs => similarity qe vecs batchSize

/-! ## Chunking lemmas -/

theorem chunksFuel_flatten (b : ℕ) :
    ∀ (fuel : ℕ) (l : List α), l.length ≤ fuel → (chunksFuel b fuel l).flatten = l := by
  intro fuel
  induction fuel with
  | zero =>
    intro l hl
    rw [Nat.le_zero] at hl
    rw [List.length_eq_zero] at hl
    subst hl
    rfl
  | succ n ih =>
    intro l hl
    match l with
    | [] => rfl
    | x :: xs =>
      rw [chunksFuel]
      simp only [List.flatten_cons]
      rw [ih (xs.drop b) (by simp only [List.length_drop]; simp at hl; omega)]
      simp [List.take_append_drop]

theorem chunksPos_flatten (b : ℕ) (l : List α) : (chunksPos b l).flatten = l :=
  chunksFuel_flatten b l.length l le_rfl

theorem batchedScores_eq_map (qe : Vec) (b : ℕ) (vecs : List Vec) :
    batchedScores qe b vecs = vecs.map (cosineSim qe) := by
  calc batchedScores qe b vecs
      = ((chunksPos b vecs).map (List.map (cosineSim qe))).flatten := rfl
    _ = ((chunksPos b vecs).flatten).map (cosineSim qe) := by rw [List.map_flatten]
    _ = vecs.map (cosineSim qe) := by rw [chunksPos_flatten]

/-- A missing key in `lookupAll` is exactly a missing key in the store. -/
theorem lookupAll_eq_none_iff (embeddings : List (Int × Vec)) (ids : List Int) :
    lookupAll embeddings ids = none ↔ ∃ i ∈ ids, embeddings.lookup i = none := by
  induction ids with
  | nil => simp [lookupAll]
  | cons i is ih =>
    rw [lookupAll]
    cases h : embeddings.lookup i with
    | none =>
      constructor
      · intro _; exact ⟨i, List.mem_cons_self i is, h⟩
      · intro _; rfl
    | some v =>
      cases h' : lookupAll embeddings is with
      | none =>
        constructor
        · intro _
          obtain ⟨j, hj, hjn⟩ := ih.mp h'
          exact ⟨j, List.mem_cons_of_mem _ hj, hjn⟩
        · intro _; rfl
      | some vs =>
        constructor
        · intro hc; simp at hc
        · rintro ⟨j, hj, hjn⟩
          rcases List.mem_cons.mp hj with rfl | hj'
          · rw [h] at hjn; cases hjn
          · have hn : lookupAll embeddings is = none := ih.mpr ⟨j, hj', hjn⟩
            rw [h'] at hn; cases hn

/-- Aligned reading of a successful `lookupAll`: the `k`-th resolved vector
is the one stored under the `k`-th id. -/
theorem lookupAll_some_get (embeddings : List (Int × Vec)) :
    ∀ (ids : List Int) (vecs : List Vec), lookupAll embeddings ids = some vecs →
      vecs.length = ids.length ∧
      ∀ k, k < ids.length →
        List.lookup (ids.getD k 0) embeddings = some (vecs.getD k []) := by
  intro ids
  induction ids with
  | nil =>
    intro vecs h
    rw [lookupAll] at h
    cases h
    exact ⟨rfl, by intro k hk; cases hk⟩
  | cons i is ih =>
    intro vecs h
    rw [lookupAll] at h
    cases hl : List.lookup i embeddings with
    | none => rw [hl] at h; cases h
    | some v =>
      rw [hl] at h
      cases hr : lookupAll embeddings is with
      | none => rw [hr] at h; cases h
      | some vs =>
        rw [hr] at h
        have h' : v :: vs = vecs := by simpa using h
        subst h'
        obtain ⟨hlen, hget⟩ := ih vs hr
        refine ⟨by simp [hlen], ?_⟩
        intro k hk
        match k with
        | 0 => simpa using hl
        | k + 1 =>
          simp only [List.getD_cons_succ]
          exact hget k (by simpa using hk)

/-- Evaluating `similarity` at a positive batch size. -/
theorem similarity_pos_eval (qe : Vec) (vs : List Vec) (bs : ℕ) (h : 0 < bs) :
    similarity qe vs bs = some (vs.map (cosineSim qe)) := by
  match bs with
  | 0 => cases h
  | b + 1 =>
    show some (batchedScores qe b vs) = _
    rw [batchedScores_eq_map]

/-- Evaluating `similarities_title_clustering` when every candidate id
resolves. -/
theorem titleClustering_eval (qe : Vec) (ids : List Int)
    (embeddings : List (Int × Vec)) (bs : ℕ) (vecs : List Vec)
    (hbs : 0 < bs) (hl : lookupAll embeddings ids = some vecs) :
    similarities_title_clustering qe ids embeddings bs =
      some (vecs.map (cosineSim qe)) := by
  unfold similarities_title_clustering
  rw [hl]
  exact similarity_pos_eval qe vecs bs hbs

/-- Evaluating `similarity_clustering` when every candidate id resolves
and the candidate set is nonempty. -/
theorem clustering_eval (qe : Vec) (ids : List Int)
    (embeddings : List (Int × Vec)) (bs : ℕ) (vecs : List Vec)
    (hbs : 0 < bs) (hl : lookupAll embeddings ids = some vecs)
    (hne : vecs ≠ []) :
    similarity_clustering qe ids embeddings bs =
      some (vecs.map (cosineSim qe)) := by
  unfold similarity_clustering
  rw [hl]
  have he : vecs.isEmpty = false := by
    cases vecs with
    | nil => exact absurd rfl hne
    | cons v vs => rfl
  show (if vecs.isEmpty = true then none else similarity qe vecs bs) = _
  rw [he]
  simp only [Bool.false_eq_true, if_false]
  exact similarity_pos_eval qe vecs bs hbs

/-- Evaluating the spec-side `titleScoresSpec` when every resolved
(parent-or-own) id is present. -/
theorem titleSpec_eval (qe : Vec) (relevantPosts : List Post)
    (embeddings : List (Int × Vec)) (bs : ℕ) (vecs : List Vec)
    (hbs : 0 < bs)
    (hl : lookupAll embeddings (relevantPosts.map (fun p => p.parentId.getD p.id)) = some vecs) :
    titleScoresSpec qe relevantPosts embeddings bs =
      some (vecs.map (cosineSim qe)) := by
  unfold titleScoresSpec
  rw [hl]
  exact similarity_pos_eval qe vecs bs hbs

/-- C5. Batch-size invariance: for every query vector, every candidate
list with its embeddings, and any two positive batch sizes, the batched
similarity scorers (`similarity`, `similarity_clustering`,
`similarities_title_clustering`) return the identical score array — the
chunk size never changes the numeric result or the output ordering. -/
theorem batch_size_invariance (qe : Vec) (vecs : List Vec) (ids : List Int)
    (embeddings : List (Int × Vec)) (b1 b2 : ℕ) (h1 : 0 < b1) (h2 : 0 < b2) :
    similarity qe vecs b1 = similarity qe vecs b2 ∧
    similarity_clustering qe ids embeddings b1 = similarity_clustering qe ids embeddings b2 ∧
    similarities_title_clustering qe ids embeddings b1 =
      similarities_title_clustering qe ids embeddings b2 := by
  have hsim : ∀ (vs : List Vec), similarity qe vs b1 = similarity qe vs b2 := by
    intro vs
    rw [similarity_pos_eval qe vs b1 h1, similarity_pos_eval qe vs b2 h2]
  refine ⟨hsim vecs, ?_, ?_⟩
  · unfold similarity_clustering
    cases lookupAll embeddings ids with
    | none => rfl
    | some vs =>
      by_cases he : vs.isEmpty
      · simp [he]
      · simp [he, hsim vs]
  · unfold similarities_title_clustering
    cases lookupAll embeddings ids with
    | none => rfl
    | some vs => exact hsim vs

/-- Witness for `batch_size_invariance` at batch sizes 1 and 7. -/
theorem batch_size_invariance_witness :
    (0 < 1 ∧ 0 < 7) ∧
    (similarity [1] [[1], [2], [3]] 1 = similarity [1] [[1], [2], [3]] 7 ∧
     similarity_clustering [1] [1, 2] [(1, [1]), (2, [2])] 1 =
       similarity_clustering [1] [1, 2] [(1, [1]), (2, [2])] 7 ∧
     similarities_title_clustering [1] [1, 2] [(1, [1]), (2, [2])] 1 =
       similarities_title_clustering [1] [1, 2] [(1, [1]), (2, [2])] 7) :=
  ⟨⟨by decide, by decide⟩,
   batch_size_invariance [1] [[1], [2], [3]] [1, 2] [(1, [1]), (2, [2])] 1 7
     (by decide) (by decide)⟩

/-- C4. A candidate id absent from the embedding store of the space being
scored makes batch similarity scoring fail with a hard error (`KeyError`,
modelled as `none`) — for the answer-space and the title-space scorer
alike; no zero vector or other default is substituted. -/
theorem missing_embedding_is_hard_error (qe : Vec) (ids : List Int)
    (embeddings : List (Int × Vec)) (bs : ℕ)
    (hmiss : ∃ i ∈ ids, List.lookup i embeddings = none) :
    similarity_clustering qe ids embeddings bs = none ∧
    similarities_title_clustering qe ids embeddings bs = none := by
  have h : lookupAll embeddings ids = none := (lookupAll_eq_none_iff embeddings ids).mpr hmiss
  constructor
  · unfold similarity_clustering; rw [h]
  · unfold similarities_title_clustering; rw [h]

/-- Witness for `missing_embedding_is_hard_error`: candidate id 5 has no
stored embedding, so both scorers raise. -/
theorem missing_embedding_is_hard_error_witness :
    (∃ i ∈ [(5 : Int)], List.lookup i [((1 : Int), ([1] : Vec))] = none) ∧
    (similarity_clustering [1] [5] [(1, [1])] 1024 = none ∧
     similarities_title_clustering [1] [5] [(1, [1])] 1024 = none) :=
  ⟨by decide,
   missing_embedding_is_hard_error [1] [5] [(1, [1])] 1024 (by decide)⟩

/-- C2, counterexample.  Corpus: question `Q(id=1, parent=null)` with
title embedding `[1,0]`, answer `A(id=2, parent_id=1)` whose stored
title-space entry is `[0,1]`; query embedding `[1,0]`.  The code
(`similarities_title_clustering`) scores `A` from the embedding stored
under its own id — score `0` — while the spec's parent-resolution rule
(`titleScoresSpec`) would score it from `Q`'s title embedding — score
`1`.  The answer does not inherit the question's title-similarity
score. -/
theorem title_inheritance_counterexample :
    similarities_title_clustering [1, 0] [1, 2] [(1, [1, 0]), (2, [0, 1])] 1024 =
      some [1, 0] ∧
    titleScoresSpec [1, 0] [⟨1, none⟩, ⟨2, some 1⟩] [(1, [1, 0]), (2, [0, 1])] 1024 =
      some [1, 1] ∧
    some [(1 : ℚ), 0] ≠ some [(1 : ℚ), 1] := by
  refine ⟨?_, ?_, by simp⟩
  · rw [titleClustering_eval [1, 0] [1, 2] [(1, [1, 0]), (2, [0, 1])] 1024
      [[1, 0], [0, 1]] (by norm_num) (by decide)]
    simp [cosineSim]
  · rw [titleSpec_eval [1, 0] [⟨1, none⟩, ⟨2, some 1⟩] [(1, [1, 0]), (2, [0, 1])] 1024
      [[1, 0], [1, 0]] (by norm_num) (by decide)]
    simp [cosineSim]

/-- C2, amended.  In the clustering pipeline every candidate's
title-similarity score is computed from the title embedding stored under
the candidate's **own** id — `parent_id` is never consulted, so an answer
does not inherit its question's title-similarity score (the parent
resolution exists only in the non-clustering `similarities_title`). -/
theorem title_clustering_uses_own_id (qe : Vec) (ids : List Int)
    (embeddings : List (Int × Vec)) (bs : ℕ) (vecs : List Vec)
    (hbs : 0 < bs) (hl : lookupAll embeddings ids = some vecs) :
    similarities_title_clustering qe ids embeddings bs =
      some (vecs.map (cosineSim qe)) ∧
    vecs.length = ids.length ∧
    ∀ k, k < ids.length →
      List.lookup (ids.getD k 0) embeddings = some (vecs.getD k []) := by
  obtain ⟨hlen, hget⟩ := lookupAll_some_get embeddings ids vecs hl
  exact ⟨titleClustering_eval qe ids embeddings bs vecs hbs hl, hlen, hget⟩

/-- Witness for `title_clustering_uses_own_id` on the two-post corpus of
the counterexample. -/
theorem title_clustering_uses_own_id_witness :
    (0 < 1024 ∧
     lookupAll [(1, [1, 0]), (2, [0, 1])] [1, 2] = some [[1, 0], [0, 1]]) ∧
    (similarities_title_clustering [1, 0] [1, 2] [(1, [1, 0]), (2, [0, 1])] 1024 =
       some ([[1, 0], [0, 1]].map (cosineSim [1, 0])) ∧
     [[(1 : ℚ), 0], [0, 1]].length = [(1 : Int), 2].length ∧
     ∀ k, k < [(1 : Int), 2].length →
       List.lookup ([(1 : Int), 2].getD k 0) [(1, [1, 0]), (2, [0, 1])] =
         some ([[(1 : ℚ), 0], [0, 1]].getD k [])) :=
  ⟨⟨by norm_num, by decide⟩,
   title_clustering_uses_own_id [1, 0] [1, 2] [(1, [1, 0]), (2, [0, 1])] 1024
     [[1, 0], [0, 1]] (by norm_num) (by decide)⟩

/-! ## Configuration weights (`SearchConfig.__post_init__`, `src/utils/config.py`) -/

/-- The exceptions `SearchConfig.__post_init__` can raise while handling
the weight triple: `ValueError` for a coefficient outside `[0, 1]`, and
Python's `ZeroDivisionError` from `self.coeff1 /= total` when the
coefficients sum to zero. -/
inductive ConfigError where
  | valueError
  | zeroDivisionError
  deriving DecidableEq, Repr

/-- `SearchConfig.__post_init__` restricted to the weight triple
(the preceding `os.path.exists(self.data_path)` check is environmental
and out of scope): validate each coefficient is within `[0, 1]`, then
normalize the triple to sum 1 unless it already does, dividing by the
total — which raises `ZeroDivisionError` when the total is zero. -/
def postInitCoeffs (c1 c2 c3 : ℚ) : Except ConfigError (ℚ × ℚ × ℚ) :=
  if ¬(0 ≤ c1 ∧ c1 ≤ 1) then .error .valueError
  else if ¬(0 ≤ c2 ∧ c2 ≤ 1) then .error .valueError
  else if ¬(0 ≤ c3 ∧ c3 ≤ 1) then .error .valueError
  else if c1 + c2 + c3 = 1 then .ok (c1, c2, c3)
  else if c1 + c2 + c3 = 0 then .error .zeroDivisionError
  else .ok (c1 / (c1 + c2 + c3), c2 / (c1 + c2 + c3), c3 / (c1 + c2 + c3))

/-- C6. Every weight triple accepted at configuration time comes out
non-negative and renormalized to sum 1 with the pairwise ratios of the
inputs preserved; a triple summing to zero is rejected with an error
(`ZeroDivisionError` when in range, `ValueError` otherwise — the
`ConfigurationError` kind of the spec's error table: fatal at startup). -/
theorem weight_normalization (c1 c2 c3 : ℚ) :
    (∀ w1 w2 w3 : ℚ, postInitCoeffs c1 c2 c3 = .ok (w1, w2, w3) →
       w1 + w2 + w3 = 1 ∧ 0 ≤ w1 ∧ 0 ≤ w2 ∧ 0 ≤ w3 ∧
       w1 * c2 = w2 * c1 ∧ w2 * c3 = w3 * c2 ∧ w1 * c3 = w3 * c1) ∧
    (c1 + c2 + c3 = 0 → ∃ e, postInitCoeffs c1 c2 c3 = .error e) := by
  constructor
  · rintro w1 w2 w3 hw
    unfold postInitCoeffs at hw
    split_ifs at hw with h1 h2 h3 ht1 ht0 <;> cases hw
    · exact ⟨ht1, h1.1, h2.1, h3.1, mul_comm c1 c2, mul_comm c2 c3, mul_comm c1 c3⟩
    · have htne : c1 + c2 + c3 ≠ 0 := ht0
      have htpos : 0 < c1 + c2 + c3 :=
        lt_of_le_of_ne (by linarith [h1.1, h2.1, h3.1]) (Ne.symm htne)
      refine ⟨by field_simp, div_nonneg h1.1 htpos.le, div_nonneg h2.1 htpos.le,
              div_nonneg h3.1 htpos.le, ?_, ?_, ?_⟩
      · field_simp; ring
      · field_simp; ring
      · field_simp; ring
  · intro h0
    unfold postInitCoeffs
    split_ifs with h1 h2 h3 ht1 ht0
    all_goals first
      | exact ⟨.valueError, rfl⟩
      | exact ⟨.zeroDivisionError, rfl⟩
      | (exfalso; rw [h0] at ht1; norm_num at ht1)

/-- Witness for `weight_normalization` at the spec's example triple
`(0.4, 0.2, 0.6)` — normalized to `(1/3, 1/6, 1/2)` — and at the
zero triple. -/
theorem weight_normalization_witness :
    (postInitCoeffs (2/5) (1/5) (3/5) = .ok (1/3, 1/6, 1/2) ∧
     ((1 : ℚ)/3 + 1/6 + 1/2 = 1 ∧ 0 ≤ (1 : ℚ)/3 ∧ 0 ≤ (1 : ℚ)/6 ∧ 0 ≤ (1 : ℚ)/2 ∧
      (1 : ℚ)/3 * (1/5) = 1/6 * (2/5) ∧ (1 : ℚ)/6 * (3/5) = 1/2 * (1/5) ∧
      (1 : ℚ)/3 * (3/5) = 1/2 * (2/5))) ∧
    ((0 : ℚ) + 0 + 0 = 0 ∧ ∃ e, postInitCoeffs 0 0 0 = .error e) :=
  ⟨⟨by norm_num [postInitCoeffs],
    (weight_normalization (2/5) (1/5) (3/5)).1 (1/3) (1/6) (1/2)
      (by norm_num [postInitCoeffs])⟩,
   ⟨by norm_num, (weight_normalization 0 0 0).2 (by norm_num)⟩⟩

/-! ## Topic index (`ClusteringManager.get_document_topics`,
`src/models/clustering_manager.py`; `clustering.py`) -/

/-- One step of Python's stable `sorted(enumerate(sublist), key=lambda x: x[1], reverse=True)`:
insert a `(topic id, probability)` pair before the first element of the
sorted rest whose probability is not larger.  Elements with equal
probabilities keep their original relative order, as Python's stable sort
guarantees. -/
def insertDescByProb (x : ℕ × ℚ) : List (ℕ × ℚ) → List (ℕ × ℚ)
  | [] => [x]
  | y :: ys => if y.2 ≤ x.2 then x :: y :: ys else y :: insertDescByProb x ys

/-- Python's `sorted(..., key=lambda x: x[1], reverse=True)` as a stable
insertion sort. -/
def sortedDescByProb (l : List (ℕ × ℚ)) : List (ℕ × ℚ) :=
  l.foldr insertDescByProb []

/-- Per-document topic selection of `get_document_topics`:
`max_indices = sorted(enumerate(sublist), key=lambda x: x[1], reverse=True)[:3]`
followed by `[index for index, _ in max_indices]`. -/
def top3Topics (sublist : List ℚ) : List ℕ :=
  ((sortedDescByProb sublist.enum).take 3).map Prod.fst

/-- `topic_documents[k].append(v)` on the `defaultdict(list)`: append to
the key's list, materialising the key at the end on first touch. -/
def ddAppend (d : List (ℕ × List Int)) (k : ℕ) (v : Int) : List (ℕ × List Int) :=
  match d with
  | [] => [(k, [v])]
  | (k', vs) :: rest => if k = k' then (k', vs ++ [v]) :: rest else (k', vs) :: ddAppend rest k v

/-- The candidate list stored under a topic id (`topic_documents[t]`,
empty when the key was never touched). -/
def topicList (d : List (ℕ × List Int)) (t : ℕ) : List Int :=
  (d.lookup t).getD []

/-- The appending loop of `get_document_topics`:
`for i, document_id in enumerate(posts.Id.values): for j in range(3): topic_documents[most_probable_topics[i][j]].append(document_id)`.
`none` models the `IndexError` raised when a document has fewer than three
selected topics. -/
def buildTopicDocuments :
    List (Int × List ℕ) → List (ℕ × List Int) → Option (List (ℕ × List Int))
  | [], d => some d
  | (doc, sel) :: rest, d =>
    match sel with
    | t0 :: t1 :: t2 :: _ =>
      buildTopicDocuments rest (ddAppend (ddAppend (ddAppend d t0 doc) t1 doc) t2 doc)
    | _ => none

/-- `ClusteringManager.get_document_topics` with the model inference
(`vectorizer.transform` + `lda_model.transform`) abstracted as its output:
the per-document topic-probability rows.  Selects each document's top-3
topics and builds the topic → document-ids mapping. -/
def getDocumentTopics (topicAssignments : List (List ℚ)) (ids : List Int) :
    Option (List (ℕ × List Int)) :=
  buildTopicDocuments (ids.zip (topicAssignments.map top3Topics)) []

/-- Topic `t` outranks topic `u` in a probability row when it has strictly
higher probability, or equal probability and the smaller topic id — the
priority realised by the stable descending sort over `enumerate`. -/
def TopicOutranks (sublist : List ℚ) (t u : ℕ) : Prop :=
  sublist.getD u 0 < sublist.getD t 0 ∨
    (sublist.getD t 0 = sublist.getD u 0 ∧ t < u)

/-- The strict (descending probability, ascending topic id) order on
enumerated pairs. -/
def PairOutranks (a b : ℕ × ℚ) : Prop :=
  b.2 < a.2 ∨ (a.2 = b.2 ∧ a.1 < b.1)

theorem insertDescByProb_perm (x : ℕ × ℚ) (l : List (ℕ × ℚ)) :
    (insertDescByProb x l).Perm (x :: l) := by
  induction l with
  | nil => rfl
  | cons y ys ih =>
    rw [insertDescByProb]
    by_cases h : y.2 ≤ x.2
    · rw [if_pos h]
    · rw [if_neg h]
      exact (List.Perm.cons y ih).trans (List.Perm.swap x y ys)

theorem sortedDescByProb_perm (l : List (ℕ × ℚ)) : (sortedDescByProb l).Perm l := by
  induction l with
  | nil => rfl
  | cons x xs ih =>
    exact (insertDescByProb_perm x (sortedDescByProb xs)).trans (List.Perm.cons x ih)

theorem mem_insertDescByProb {z x : ℕ × ℚ} {l : List (ℕ × ℚ)}
    (h : z ∈ insertDescByProb x l) : z = x ∨ z ∈ l := by
  have hm := (insertDescByProb_perm x l).mem_iff.mp h
  simpa using hm

theorem insertDescByProb_pairwise (x : ℕ × ℚ) (l : List (ℕ × ℚ))
    (hs : l.Pairwise PairOutranks) (hidx : ∀ y ∈ l, x.1 < y.1) :
    (insertDescByProb x l).Pairwise PairOutranks := by
  induction l with
  | nil => simp [insertDescByProb, List.pairwise_singleton]
  | cons y ys ih =>
    rw [insertDescByProb]
    rw [List.pairwise_cons] at hs
    by_cases h : y.2 ≤ x.2
    · rw [if_pos h]
      refine List.Pairwise.cons ?_ (List.Pairwise.cons hs.1 hs.2)
      intro z hz
      rcases List.mem_cons.mp hz with rfl | hz'
      · rcases lt_or_eq_of_le h with hlt | heq
        · exact Or.inl hlt
        · exact Or.inr ⟨heq.symm, hidx z (List.mem_cons_self z ys)⟩
      · rcases hs.1 z hz' with hlt | ⟨heq, _⟩
        · exact Or.inl (lt_of_lt_of_le hlt h)
        · rcases lt_or_eq_of_le (heq ▸ h) with hlt | heq'
          · exact Or.inl hlt
          · exact Or.inr ⟨heq'.symm, hidx z (List.mem_cons_of_mem y hz')⟩
    · rw [if_neg h]
      refine List.Pairwise.cons ?_ (ih hs.2 (fun z hz => hidx z (List.mem_cons_of_mem y hz)))
      intro z hz
      rcases mem_insertDescByProb hz with rfl | hz'
      · exact Or.inl (lt_of_not_le h)
      · exact hs.1 z hz'

/-- The stable descending sort over pairs with strictly increasing first
components is sorted in the strict (probability desc, id asc) order. -/
theorem sortedDescByProb_pairwise (l : List (ℕ × ℚ))
    (hidx : l.Pairwise (fun a b => a.1 < b.1)) :
    (sortedDescByProb l).Pairwise PairOutranks := by
  induction l with
  | nil => exact List.Pairwise.nil
  | cons x xs ih =>
    rw [List.pairwise_cons] at hidx
    refine insertDescByProb_pairwise x (sortedDescByProb xs) (ih hidx.2) ?_
    intro y hy
    exact hidx.1 y ((sortedDescByProb_perm xs).mem_iff.mp hy)

theorem mem_enum_getD {i : ℕ} {x : ℚ} {l : List ℚ} (h : (i, x) ∈ l.enum) :
    i < l.length ∧ l.getD i 0 = x := by
  rw [List.mk_mem_enum_iff_getElem?] at h
  obtain ⟨hi, he⟩ := List.getElem?_eq_some.mp h
  exact ⟨hi, by rw [List.getD_eq_getElem l 0 hi]; exact he⟩

theorem enum_mem_of_lt {i : ℕ} {l : List ℚ} (h : i < l.length) :
    (i, l.getD i 0) ∈ l.enum := by
  rw [List.mk_mem_enum_iff_getElem?, List.getD_eq_getElem l 0 h]
  exact List.getElem?_eq_some.mpr ⟨h, rfl⟩

theorem length_sortedDescByProb_enum (sub : List ℚ) :
    (sortedDescByProb sub.enum).length = sub.length := by
  rw [(sortedDescByProb_perm sub.enum).length_eq, List.enum_length]

/-- Exactly three topics are selected when the model has at least three
topics. -/
theorem top3Topics_length (sub : List ℚ) (h : 3 ≤ sub.length) :
    (top3Topics sub).length = 3 := by
  unfold top3Topics
  rw [List.length_map, List.length_take, length_sortedDescByProb_enum]
  omega

/-- The selected topics are pairwise distinct. -/
theorem top3Topics_nodup (sub : List ℚ) : (top3Topics sub).Nodup := by
  unfold top3Topics
  have hperm : ((sortedDescByProb sub.enum).map Prod.fst).Perm (sub.enum.map Prod.fst) :=
    (sortedDescByProb_perm sub.enum).map Prod.fst
  have hnd : ((sortedDescByProb sub.enum).map Prod.fst).Nodup :=
    hperm.nodup_iff.mpr (List.nodup_enum_map_fst sub)
  rw [List.map_take]
  exact hnd.sublist (List.take_sublist 3 _)

theorem mem_top3Topics {sub : List ℚ} {t : ℕ} (h : t ∈ top3Topics sub) :
    ∃ a ∈ (sortedDescByProb sub.enum).take 3, a.1 = t ∧ a ∈ sub.enum := by
  unfold top3Topics at h
  obtain ⟨a, ha, hfst⟩ := List.mem_map.mp h
  exact ⟨a, ha, hfst,
    (sortedDescByProb_perm sub.enum).mem_iff.mp (List.mem_of_mem_take ha)⟩

/-- A selected topic id is a valid index into the probability row. -/
theorem top3Topics_lt_length {sub : List ℚ} {t : ℕ} (h : t ∈ top3Topics sub) :
    t < sub.length := by
  obtain ⟨a, _, hfst, haenum⟩ := mem_top3Topics h
  have := (mem_enum_getD (by rwa [show ((a.1 : ℕ), a.2) = a from rfl])).1
  rwa [hfst] at this

/-- Every selected topic outranks every non-selected topic in the
(probability desc, topic id asc) priority. -/
theorem top3Topics_outranks (sub : List ℚ) {t u : ℕ}
    (ht : t ∈ top3Topics sub) (hu : u < sub.length) (hun : u ∉ top3Topics sub) :
    TopicOutranks sub t u := by
  obtain ⟨a, hat, hfst, haenum⟩ := mem_top3Topics ht
  have henum_pw : sub.enum.Pairwise (fun a b => a.1 < b.1) := by
    have h1 : (sub.enum.map Prod.fst).Pairwise (· < ·) := by
      rw [List.enum_map_fst]; exact List.pairwise_lt_range _
    exact List.pairwise_map.mp h1
  have hpw : (sortedDescByProb sub.enum).Pairwise PairOutranks :=
    sortedDescByProb_pairwise sub.enum henum_pw
  have humem : ((u : ℕ), sub.getD u 0) ∈ sortedDescByProb sub.enum :=
    (sortedDescByProb_perm sub.enum).mem_iff.mpr (enum_mem_of_lt hu)
  have hunot : ((u : ℕ), sub.getD u 0) ∉ (sortedDescByProb sub.enum).take 3 := by
    intro hmem
    exact hun (List.mem_map.mpr ⟨(u, sub.getD u 0), hmem, rfl⟩)
  have hudrop : ((u : ℕ), sub.getD u 0) ∈ (sortedDescByProb sub.enum).drop 3 := by
    have hsplitmem : ((u : ℕ), sub.getD u 0) ∈
        (sortedDescByProb sub.enum).take 3 ++ (sortedDescByProb sub.enum).drop 3 := by
      rw [List.take_append_drop 3 (sortedDescByProb sub.enum)]
      exact humem
    rcases List.mem_append.mp hsplitmem with h | h
    · exact absurd h hunot
    · exact h
  have hsplit := hpw
  rw [← List.take_append_drop 3 (sortedDescByProb sub.enum)] at hsplit
  have hrel : PairOutranks a (u, sub.getD u 0) :=
    (List.pairwise_append.mp hsplit).2.2 a hat _ hudrop
  have hat2 : a.2 = sub.getD t 0 := by
    have := (mem_enum_getD (show (a.1, a.2) ∈ sub.enum from haenum)).2
    rw [hfst] at this
    exact this.symm
  rcases hrel with hlt | ⟨heq, hidx⟩
  · exact Or.inl (by rw [← hat2]; exact hlt)
  · exact Or.inr ⟨by rw [← hat2]; exact heq, by rw [← hfst]; exact hidx⟩

theorem topicList_ddAppend (d : List (ℕ × List Int)) (k : ℕ) (v : Int) (t : ℕ) :
    topicList (ddAppend d k v) t =
      if t = k then topicList d t ++ [v] else topicList d t := by
  induction d with
  | nil =>
    by_cases h : t = k
    · subst h; simp [ddAppend, topicList, List.lookup]
    · have hbeq : (t == k) = false := beq_eq_false_iff_ne.mpr h
      simp [ddAppend, topicList, List.lookup, hbeq, h]
  | cons hd rest ih =>
    obtain ⟨k', vs⟩ := hd
    rw [ddAppend]
    by_cases hkk : k = k'
    · subst hkk
      rw [if_pos rfl]
      by_cases htk : t = k
      · subst htk; simp [topicList, List.lookup]
      · have hbeq : (t == k) = false := beq_eq_false_iff_ne.mpr htk
        simp [topicList, List.lookup, hbeq, htk]
    · rw [if_neg hkk]
      by_cases htk' : t = k'
      · subst htk'
        have htk : ¬(t = k) := fun h => hkk h.symm
        simp [topicList, List.lookup, htk]
      · have : (t == k') = false := by simp [htk']
        simp only [topicList, List.lookup, this]
        exact ih

theorem mem_topicList_ddAppend {d : List (ℕ × List Int)} {k : ℕ} {v : Int}
    {t : ℕ} {pid : Int} :
    pid ∈ topicList (ddAppend d k v) t ↔
      pid ∈ topicList d t ∨ (t = k ∧ pid = v) := by
  rw [topicList_ddAppend]
  by_cases h : t = k
  · subst h; simp
  · simp [h]

theorem buildTopicDocuments_isSome :
    ∀ (pairs : List (Int × List ℕ)), (∀ p ∈ pairs, 3 ≤ p.2.length) →
      ∀ d, ∃ d', buildTopicDocuments pairs d = some d' := by
  intro pairs
  induction pairs with
  | nil => intro _ d; exact ⟨d, rfl⟩
  | cons p rest ih =>
    intro h d
    obtain ⟨doc, sel⟩ := p
    match sel, h (doc, sel) (List.mem_cons_self _ _) with
    | t0 :: t1 :: t2 :: selRest, _ =>
      exact ih (fun q hq => h q (List.mem_cons_of_mem _ hq))
        (ddAppend (ddAppend (ddAppend d t0 doc) t1 doc) t2 doc)

theorem buildTopicDocuments_mem :
    ∀ (pairs : List (Int × List ℕ)) (d d' : List (ℕ × List Int)),
      buildTopicDocuments pairs d = some d' →
      ∀ (t : ℕ) (pid : Int),
        (pid ∈ topicList d' t ↔
          pid ∈ topicList d t ∨ ∃ p ∈ pairs, p.1 = pid ∧ t ∈ p.2.take 3) := by
  intro pairs
  induction pairs with
  | nil =>
    intro d d' h t pid
    rw [buildTopicDocuments] at h
    cases h
    simp
  | cons p rest ih =>
    intro d d' h t pid
    obtain ⟨doc, sel⟩ := p
    match sel with
    | [] =>
      rw [show buildTopicDocuments ((doc, []) :: rest) d = none from rfl] at h
      cases h
    | [t0] =>
      rw [show buildTopicDocuments ((doc, [t0]) :: rest) d = none from rfl] at h
      cases h
    | [t0, t1] =>
      rw [show buildTopicDocuments ((doc, [t0, t1]) :: rest) d = none from rfl] at h
      cases h
    | t0 :: t1 :: t2 :: selRest =>
      rw [buildTopicDocuments] at h
      rw [ih _ _ h t pid]
      rw [mem_topicList_ddAppend, mem_topicList_ddAppend, mem_topicList_ddAppend]
      constructor
      · rintro ((((hmem | h0) | h1) | h2) | ⟨q, hq, hq1, hq2⟩)
        · exact Or.inl hmem
        · exact Or.inr ⟨(doc, t0 :: t1 :: t2 :: selRest), List.mem_cons_self _ _,
            h0.2.symm, by simp [h0.1]⟩
        · exact Or.inr ⟨(doc, t0 :: t1 :: t2 :: selRest), List.mem_cons_self _ _,
            h1.2.symm, by simp [h1.1]⟩
        · exact Or.inr ⟨(doc, t0 :: t1 :: t2 :: selRest), List.mem_cons_self _ _,
            h2.2.symm, by simp [h2.1]⟩
        · exact Or.inr ⟨q, List.mem_cons_of_mem _ hq, hq1, hq2⟩
      · rintro (hmem | ⟨q, hq, hq1, hq2⟩)
        · exact Or.inl (Or.inl (Or.inl (Or.inl hmem)))
        · rcases List.mem_cons.mp hq with rfl | hq'
          · simp only [List.take_succ_cons, List.take_zero, List.mem_cons,
              List.not_mem_nil, or_false] at hq2
            rcases hq2 with rfl | rfl | rfl
            · exact Or.inl (Or.inl (Or.inl (Or.inr ⟨rfl, hq1.symm⟩)))
            · exact Or.inl (Or.inl (Or.inr ⟨rfl, hq1.symm⟩))
            · exact Or.inl (Or.inr ⟨rfl, hq1.symm⟩)
          · exact Or.inr ⟨q, hq', hq1, hq2⟩

theorem top3Topics_take_three (sub : List ℚ) :
    (top3Topics sub).take 3 = top3Topics sub := by
  apply List.take_of_length_le
  unfold top3Topics
  rw [List.length_map, List.length_take]
  omega

/-- C9. Topic-index building: for every post, the builder selects exactly
the 3 distinct topics of highest probability (probability ties broken by
ascending topic id — the deterministic order of Python's stable
`sorted(..., reverse=True)` over `enumerate`), and the post id is filed
under exactly those 3 topics' candidate lists. -/
theorem topic_index_top3 (topicAssignments : List (List ℚ)) (ids : List Int)
    (h3 : ∀ sub ∈ topicAssignments, 3 ≤ sub.length)
    (hlen : ids.length = topicAssignments.length)
    (hnodup : ids.Nodup) :
    ∃ topicDocuments,
      getDocumentTopics topicAssignments ids = some topicDocuments ∧
      ∀ k, k < topicAssignments.length →
        ((top3Topics (topicAssignments.getD k [])).length = 3 ∧
         (top3Topics (topicAssignments.getD k [])).Nodup) ∧
        (∀ t ∈ top3Topics (topicAssignments.getD k []),
           t < (topicAssignments.getD k []).length ∧
           ∀ u, u < (topicAssignments.getD k []).length →
             u ∉ top3Topics (topicAssignments.getD k []) →
             TopicOutranks (topicAssignments.getD k []) t u) ∧
        (∀ t : ℕ, ids.getD k 0 ∈ topicList topicDocuments t ↔
           t ∈ top3Topics (topicAssignments.getD k [])) := by
  have hzip3 : ∀ p ∈ ids.zip (topicAssignments.map top3Topics), 3 ≤ p.2.length := by
    rintro ⟨q1, q2⟩ hq
    have hq2 : q2 ∈ topicAssignments.map top3Topics := (List.mem_zip hq).2
    obtain ⟨sub, hsub, rfl⟩ := List.mem_map.mp hq2
    rw [top3Topics_length sub (h3 sub hsub)]
  obtain ⟨d', hd'⟩ := buildTopicDocuments_isSome _ hzip3 []
  refine ⟨d', hd', ?_⟩
  intro k hk
  have hsubmem : topicAssignments.getD k [] ∈ topicAssignments := by
    rw [List.getD_eq_getElem topicAssignments [] hk]
    exact List.getElem_mem hk
  refine ⟨⟨top3Topics_length _ (h3 _ hsubmem), top3Topics_nodup _⟩, ?_, ?_⟩
  · intro t ht
    exact ⟨top3Topics_lt_length ht,
      fun u hu hun => top3Topics_outranks _ ht hu hun⟩
  · intro t
    have hmem := buildTopicDocuments_mem _ [] d' hd' t (ids.getD k 0)
    rw [hmem]
    have hkid : k < ids.length := by omega
    constructor
    · rintro (habs | ⟨⟨q1, q2⟩, hq, hq1, hq2⟩)
      · simp [topicList] at habs
      · obtain ⟨j, hj, hjq⟩ := List.mem_iff_getElem.mp hq
        rw [List.length_zip, List.length_map] at hj
        have hjlen : j < ids.length := lt_of_lt_of_le hj (by omega)
        have hjlen' : j < topicAssignments.length := lt_of_lt_of_le hj (by omega)
        have hmaplen : j < (topicAssignments.map top3Topics).length := by
          rw [List.length_map]; omega
        rw [List.getElem_zip] at hjq
        have hq1' : q1 = ids.getD k 0 := hq1
        have hq2' : t ∈ q2.take 3 := hq2
        have hq1j : ids[j] = q1 := congrArg Prod.fst hjq
        have hq2j : (topicAssignments.map top3Topics)[j] = q2 :=
          congrArg Prod.snd hjq
        have hidsjk : ids[j] = ids[k] := by
          rw [hq1j, hq1']
          exact List.getD_eq_getElem ids 0 hkid
        have hjk : j = k := by
          rw [List.Nodup.getElem_inj_iff hnodup] at hidsjk
          exact hidsjk
        subst hjk
        rw [List.getElem_map] at hq2j
        rw [← hq2j] at hq2'
        rw [← List.getD_eq_getElem topicAssignments [] hjlen'] at hq2'
        rwa [top3Topics_take_three] at hq2'
    · intro ht
      refine Or.inr ⟨(ids.getD k 0, top3Topics (topicAssignments.getD k [])),
        ?_, rfl, ?_⟩
      · rw [List.mem_iff_getElem]
        refine ⟨k, ?_, ?_⟩
        · rw [List.length_zip, List.length_map]
          omega
        · rw [List.getElem_zip, List.getElem_map]
          rw [List.getD_eq_getElem ids 0 hkid,
            List.getD_eq_getElem topicAssignments [] hk]
      · rwa [top3Topics_take_three]

/-- Witness for `topic_index_top3`: one post (id 7) with probability row
`[1, 3, 2, 2]` — topics 1, 2, 3 selected, the tie between topics 2 and 3
broken by ascending topic id. -/
theorem topic_index_top3_witness :
    ((∀ sub ∈ [[(1 : ℚ), 3, 2, 2]], 3 ≤ sub.length) ∧
     [(7 : Int)].length = [[(1 : ℚ), 3, 2, 2]].length ∧
     [(7 : Int)].Nodup) ∧
    (∃ topicDocuments,
       getDocumentTopics [[(1 : ℚ), 3, 2, 2]] [(7 : Int)] = some topicDocuments ∧
       ∀ k, k < [[(1 : ℚ), 3, 2, 2]].length →
         ((top3Topics ([[(1 : ℚ), 3, 2, 2]].getD k [])).length = 3 ∧
          (top3Topics ([[(1 : ℚ), 3, 2, 2]].getD k [])).Nodup) ∧
         (∀ t ∈ top3Topics ([[(1 : ℚ), 3, 2, 2]].getD k []),
            t < ([[(1 : ℚ), 3, 2, 2]].getD k []).length ∧
            ∀ u, u < ([[(1 : ℚ), 3, 2, 2]].getD k []).length →
              u ∉ top3Topics ([[(1 : ℚ), 3, 2, 2]].getD k []) →
              TopicOutranks ([[(1 : ℚ), 3, 2, 2]].getD k []) t u) ∧
         (∀ t : ℕ, [(7 : Int)].getD k 0 ∈ topicList topicDocuments t ↔
            t ∈ top3Topics ([[(1 : ℚ), 3, 2, 2]].getD k []))) :=
  ⟨⟨by simp, by simp, by simp⟩,
   topic_index_top3 [[(1 : ℚ), 3, 2, 2]] [(7 : Int)] (by simp) (by simp) (by simp)⟩

/-! ## Thread deduplication (`search_engine_clustering`, `search_engine.py`;
`SearchEngine.search`, `src/core/search_engine.py`) -/

/-- `top_posts["ParentId"] = top_posts["ParentId"].fillna(top_posts["Id"])`:
materialise each row's representative id into its ParentId column. -/
def fillParent (ranked : List Post) : List Post :=
  ranked.map (fun p => { p with parentId := some (p.parentId.getD p.id) })

/-- Structural worker for `dropDuplicatesFirst`, carrying the set of
already-seen values. -/
def dropDupFirstAux [DecidableEq α] (seen : List α) : List α → List α
  | [] => []
  | x :: xs =>
    if x ∈ seen then dropDupFirstAux seen xs
    else x :: dropDupFirstAux (x :: seen) xs

/-- pandas `Series.drop_duplicates(keep='first')`: the distinct values in
first-occurrence order. -/
def dropDuplicatesFirst [DecidableEq α] (l : List α) : List α :=
  dropDupFirstAux [] l

/-- The representative id a filled row carries. -/
def repId (p : Post) : Int :=
  p.parentId.getD p.id

/-- The deduplication block of the clustering search (`search_engine.py`
lines 110-118; `src/core/search_engine.py` lines 133-138), applied to the
ranked rows:
`top_posts["ParentId"] = top_posts["ParentId"].fillna(top_posts["Id"])`,
`top_posts_id = top_posts["ParentId"].drop_duplicates(keep='first')`,
`top_posts = top_posts[top_posts["ParentId"].isin(top_posts_id)]`.
The `isin` filter keeps the rows whose representative id occurs in the
deduplicated column. -/
def dedupRankedPosts (ranked : List Post) : List Post :=
  (fillParent ranked).filter
    (fun p => decide (repId p ∈ dropDuplicatesFirst ((fillParent ranked).map repId)))

theorem mem_dropDupFirstAux [DecidableEq α] (a : α) :
    ∀ (l : List α) (seen : List α),
      a ∈ dropDupFirstAux seen l ↔ a ∈ l ∧ a ∉ seen := by
  intro l
  induction l with
  | nil => intro seen; simp [dropDupFirstAux]
  | cons x xs ih =>
    intro seen
    rw [dropDupFirstAux]
    by_cases hx : x ∈ seen
    · rw [if_pos hx, ih]
      constructor
      · rintro ⟨hxs, hns⟩; exact ⟨List.mem_cons_of_mem x hxs, hns⟩
      · rintro ⟨hmem, hns⟩
        rcases List.mem_cons.mp hmem with rfl | hxs
        · exact absurd hx hns
        · exact ⟨hxs, hns⟩
    · rw [if_neg hx]
      constructor
      · intro hm
        rcases List.mem_cons.mp hm with rfl | hm'
        · exact ⟨List.mem_cons_self a xs, hx⟩
        · obtain ⟨hxs, hns⟩ := (ih (x :: seen)).mp hm'
          exact ⟨List.mem_cons_of_mem x hxs,
            fun hs => hns (List.mem_cons_of_mem x hs)⟩
      · rintro ⟨hmem, hns⟩
        rcases List.mem_cons.mp hmem with rfl | hxs
        · exact List.mem_cons_self a _
        · by_cases hax : a = x
          · subst hax; exact List.mem_cons_self a _
          · exact List.mem_cons_of_mem x ((ih (x :: seen)).mpr
              ⟨hxs, fun hs => (List.mem_cons.mp hs).elim hax hns⟩)

/-- `drop_duplicates` keeps exactly the values of the column. -/
theorem mem_dropDuplicatesFirst [DecidableEq α] (a : α) (l : List α) :
    a ∈ dropDuplicatesFirst l ↔ a ∈ l := by
  rw [dropDuplicatesFirst, mem_dropDupFirstAux]
  simp

/-- C1, refuted.  The `isin` filter of the deduplication block is a no-op:
every row's representative id trivially occurs in the deduplicated
representative-id column, so no row is ever dropped — the block only
materialises the ParentId column.  On the ranked thread
`[answer(id 2, parent 1), question(id 1, parent null)]` both rows survive
and share representative id 1, violating the claimed dedup invariant. -/
theorem dedup_filter_noop :
    (∀ ranked : List Post, dedupRankedPosts ranked = fillParent ranked) ∧
    (dedupRankedPosts [⟨2, some 1⟩, ⟨1, none⟩] = [⟨2, some 1⟩, ⟨1, some 1⟩] ∧
     ([⟨2, some 1⟩, ⟨1, some 1⟩] : List Post).map repId = [1, 1]) := by
  have hnoop : ∀ ranked : List Post, dedupRankedPosts ranked = fillParent ranked := by
    intro ranked
    unfold dedupRankedPosts
    apply List.filter_eq_self.mpr
    intro p hp
    rw [decide_eq_true_iff, mem_dropDuplicatesFirst]
    exact List.mem_map.mpr ⟨p, hp, rfl⟩
  refine ⟨hnoop, ?_, by decide⟩
  rw [hnoop]
  decide

/-! ## Empty-topic handling (`SearchEngine.search`,
`src/core/search_engine.py`; `ClusteringManager.get_documents_for_topic`,
`src/models/clustering_manager.py`) -/

/-- `ClusteringManager.get_documents_for_topic(topic_id)`:
`self.topic_documents.get(topic_id, [])` — the safe accessor with a
default. -/
def getDocumentsForTopic (topicDocuments : List (ℕ × List Int)) (topicId : ℕ) :
    List Int :=
  (topicDocuments.lookup topicId).getD []

/-- The candidate-selection head of `SearchEngine.search`
(`src/core/search_engine.py` lines 97-105):
`relevant_docs = self.topic_documents[topic_query]` is a plain-`dict`
indexing — `KeyError` (`none`) when the topic holds no documents, since
`get_document_topics` only creates keys for topics that received at
least one post — followed by
`relevant_posts = self.posts[self.posts['Id'].isin(relevant_docs)]`
(the `len(relevant_posts) == 0` guard then returns the same empty
frame the filter produces). -/
def searchCandidatePhase (topicDocuments : List (ℕ × List Int)) (topicQuery : ℕ)
    (posts : List Post) : Option (List Post) :=
  match topicDocuments.lookup topicQuery with
  | none => none
  | some relevantDocs => some (posts.filter (fun p => decide (p.id ∈ relevantDocs)))

theorem ddAppend_values_nonempty {d : List (ℕ × List Int)} {k : ℕ} {v : Int}
    (h : ∀ kv ∈ d, kv.2 ≠ []) : ∀ kv ∈ ddAppend d k v, kv.2 ≠ [] := by
  induction d with
  | nil =>
    rintro kv hkv
    rw [ddAppend] at hkv
    rcases List.mem_cons.mp hkv with rfl | h'
    · simp
    · cases h'
  | cons hd rest ih =>
    obtain ⟨k', vs⟩ := hd
    rintro kv hkv
    rw [ddAppend] at hkv
    by_cases hkk : k = k'
    · rw [if_pos hkk] at hkv
      rcases List.mem_cons.mp hkv with rfl | h'
      · simp
      · exact h kv (List.mem_cons_of_mem _ h')
    · rw [if_neg hkk] at hkv
      rcases List.mem_cons.mp hkv with rfl | h'
      · exact h (k', vs) (List.mem_cons_self _ _)
      · exact ih (fun q hq => h q (List.mem_cons_of_mem _ hq)) kv h'

theorem buildTopicDocuments_values_nonempty :
    ∀ (pairs : List (Int × List ℕ)) (d d' : List (ℕ × List Int)),
      buildTopicDocuments pairs d = some d' →
      (∀ kv ∈ d, kv.2 ≠ []) → ∀ kv ∈ d', kv.2 ≠ [] := by
  intro pairs
  induction pairs with
  | nil =>
    intro d d' h hd
    rw [buildTopicDocuments] at h
    cases h
    exact hd
  | cons p rest ih =>
    intro d d' h hd
    obtain ⟨doc, sel⟩ := p
    match sel with
    | [] =>
      rw [show buildTopicDocuments ((doc, []) :: rest) d = none from rfl] at h
      cases h
    | [t0] =>
      rw [show buildTopicDocuments ((doc, [t0]) :: rest) d = none from rfl] at h
      cases h
    | [t0, t1] =>
      rw [show buildTopicDocuments ((doc, [t0, t1]) :: rest) d = none from rfl] at h
      cases h
    | t0 :: t1 :: t2 :: selRest =>
      rw [buildTopicDocuments] at h
      exact ih _ _ h
        (ddAppend_values_nonempty (ddAppend_values_nonempty
          (ddAppend_values_nonempty hd)))

theorem lookup_mem {d : List (ℕ × List Int)} {t : ℕ} {vs : List Int}
    (h : d.lookup t = some vs) : (t, vs) ∈ d := by
  induction d with
  | nil => cases h
  | cons hd rest ih =>
    obtain ⟨k', vs'⟩ := hd
    rw [List.lookup] at h
    by_cases htk : t = k'
    · subst htk
      simp only [beq_self_eq_true] at h
      cases h
      exact List.mem_cons_self _ _
    · have hbeq : (t == k') = false := beq_eq_false_iff_ne.mpr htk
      rw [hbeq] at h
      exact List.mem_cons_of_mem _ (ih h)

/-- C3, refuted.  A topic with zero candidate posts is exactly a topic id
absent from the built `topic_documents` dict (every key the builder
creates holds a nonempty list), and on such a topic
`SearchEngine.search` raises `KeyError` at
`self.topic_documents[topic_query]` instead of returning an empty
result; the safe accessor `get_documents_for_topic` — which the spec
describes and which does return `[]` — is never invoked by `search`. -/
theorem empty_topic_is_keyerror :
    (searchCandidatePhase [(0, [(1 : Int)])] 1 [⟨1, none⟩] = none ∧
     getDocumentsForTopic [(0, [(1 : Int)])] 1 = []) ∧
    (∀ (pairs : List (Int × List ℕ)) (d' : List (ℕ × List Int)),
       buildTopicDocuments pairs [] = some d' →
       ∀ (t : ℕ) (vs : List Int), d'.lookup t = some vs → vs ≠ []) := by
  refine ⟨⟨by decide, by decide⟩, ?_⟩
  intro pairs d' h t vs hl
  exact buildTopicDocuments_values_nonempty pairs [] d' h (by simp) (t, vs)
    (lookup_mem hl)

/-- Witness for `empty_topic_is_keyerror`: the index built from one post
(id 5) under topics 0, 1, 2 stores a nonempty list under key 0. -/
theorem empty_topic_is_keyerror_witness :
    (buildTopicDocuments [((5 : Int), [0, 1, 2])] [] =
       some [(0, [5]), (1, [5]), (2, [5])] ∧
     ([(0, [(5 : Int)]), (1, [5]), (2, [5])] : List (ℕ × List Int)).lookup 0 =
       some [5] ∧
     ([(5 : Int)] : List Int) ≠ []) := by
  refine ⟨by decide, by decide, ?_⟩
  exact empty_topic_is_keyerror.2 [((5 : Int), [0, 1, 2])]
    [(0, [5]), (1, [5]), (2, [5])] (by decide) 0 [5] (by decide)

/-! ## `np.argsort` (`order_similarity`, `semantic_search.py`;
`SemanticSearch.order_similarity`, `src/search/semantic_search.py`)

`order_similarity(ms)` is `list(np.argsort(-np.array(ms)))`.  `np.argsort`
with its default `kind='quicksort'` runs numpy's introsort
(`npy_aquicksort` in `npysort/quicksort.c.src`): median-of-3 quicksort
with an explicit segment stack, switching to insertion sort for segments
of at most `SMALL_QUICKSORT + 1 = 16` elements and to heapsort beyond a
depth limit of `2 * msb(n)`.  numpy is an external dependency of the
repository; the port below follows that classic implementation.  The
hole-based insertion and sift loops are rendered as adjacent-swap /
split-list passes with identical final contents; reads and swaps are
guarded to be total (the guards never fire in the algorithm's in-bounds
executions); loops carry explicit fuel large enough never to be
exhausted. -/

/-- `tosort[i]`: a read of the index array. -/
def geti (ts : List ℕ) (i : ℕ) : ℕ := ts.getD i 0

/-- `v[tosort[i]]`: the sort key at position `i`. -/
def vat (v : List ℚ) (ts : List ℕ) (i : ℕ) : ℚ := v.getD (geti ts i) 0

/-- `INTP_SWAP` of two positions of the index array. -/
def swapi (ts : List ℕ) (i j : ℕ) : List ℕ :=
  if i < ts.length ∧ j < ts.length then
    (ts.set i (geti ts j)).set j (geti ts i)
  else ts

/-- `do ++pi; while (LT(v[*pi], vp))`: advance the left pointer past keys
below the pivot. -/
def scanUp (v : List ℚ) (ts : List ℕ) (vp : ℚ) : ℕ → ℕ → ℕ
  | 0, p => p + 1
  | fuel + 1, p =>
    if vat v ts (p + 1) < vp then scanUp v ts vp fuel (p + 1) else p + 1

/-- `do --pj; while (LT(vp, v[*pj]))`: retreat the right pointer past keys
above the pivot. -/
def scanDown (v : List ℚ) (ts : List ℕ) (vp : ℚ) : ℕ → ℕ → ℕ
  | 0, p => p - 1
  | fuel + 1, p =>
    if vp < vat v ts (p - 1) then scanDown v ts vp fuel (p - 1) else p - 1

/-- The pointer-crossing exchange loop of the partition step; returns the
updated index array and the crossing position `pi`. -/
def partitionLoop (v : List ℚ) (vp : ℚ) : ℕ → List ℕ → ℕ → ℕ → List ℕ × ℕ
  | 0, ts, p, _ => (ts, p)
  | fuel + 1, ts, p, q =>
    let p' := scanUp v ts vp (ts.length + 2) p
    let q' := scanDown v ts vp (ts.length + 2) q
    if q' ≤ p' then (ts, p')
    else partitionLoop v vp fuel (swapi ts p' q') p' q'

/-- One median-of-3 partition of the segment `[pl, pr]`: the three
median swaps, the pivot stash at `pr - 1`, the exchange loop, and the
final pivot placement; returns the array and the pivot position. -/
def partitionStep (v : List ℚ) (ts : List ℕ) (pl pr : ℕ) : List ℕ × ℕ :=
  let pm := pl + (pr - pl) / 2
  let ts1 := if vat v ts pm < vat v ts pl then swapi ts pm pl else ts
  let ts2 := if vat v ts1 pr < vat v ts1 pm then swapi ts1 pr pm else ts1
  let ts3 := if vat v ts2 pm < vat v ts2 pl then swapi ts2 pm pl else ts2
  let vp := vat v ts3 pm
  let ts4 := swapi ts3 pm (pr - 1)
  let res := partitionLoop v vp (pr - pl + 2) ts4 pl (pr - 1)
  (swapi res.1 res.2 (pr - 1), res.2)

/-- The child chosen by the sift-down step: the right child when it
exists and its key is larger (`if (j < n && LT(v[a[j]], v[a[j+1]])) j += 1`). -/
def heapChild (v : List ℚ) (ts : List ℕ) (pl n i : ℕ) : ℕ :=
  if 2 * i < n ∧ vat v ts (pl + 2 * i - 1) < vat v ts (pl + 2 * i) then 2 * i + 1
  else 2 * i

/-- Sift-down of the 1-based heap over `tosort[pl .. pl+n-1]`
(`a[x] = tosort[pl + x - 1]`), swap-based with the same final contents as
numpy's hole-based loop. -/
def siftDown (v : List ℚ) (pl n : ℕ) : ℕ → List ℕ → ℕ → List ℕ
  | 0, ts, _ => ts
  | fuel + 1, ts, i =>
    if 2 * i ≤ n then
      if vat v ts (pl + i - 1) < vat v ts (pl + heapChild v ts pl n i - 1) then
        siftDown v pl n fuel
          (swapi ts (pl + i - 1) (pl + heapChild v ts pl n i - 1))
          (heapChild v ts pl n i)
      else ts
    else ts

/-- Heap construction: `for (l = n >> 1; l > 0; --l)` sift-down. -/
def heapLoop1 (v : List ℚ) (pl n : ℕ) : ℕ → List ℕ → ℕ → List ℕ
  | 0, ts, _ => ts
  | fuel + 1, ts, l =>
    if l = 0 then ts
    else heapLoop1 v pl n fuel (siftDown v pl n (n + 2) ts l) (l - 1)

/-- Heap extraction: `for (; n > 1;)` swap the root with the last leaf and
sift-down on the shrunk heap. -/
def heapLoop2 (v : List ℚ) (pl : ℕ) : ℕ → List ℕ → ℕ → List ℕ
  | 0, ts, _ => ts
  | fuel + 1, ts, n =>
    if n ≤ 1 then ts
    else
      heapLoop2 v pl fuel
        (siftDown v pl (n - 1) (n + 2) (swapi ts (pl + n - 1) pl) 1) (n - 1)

/-- `npy_aheapsort` on the segment `[pl, pr]`. -/
def aheapsortSeg (v : List ℚ) (ts : List ℕ) (pl pr : ℕ) : List ℕ :=
  heapLoop2 v pl (pr - pl + 3)
    (heapLoop1 v pl (pr - pl + 1) (pr - pl + 3) ts ((pr - pl + 1) / 2))
    (pr - pl + 1)

/-- The insertion-sort inner loop
(`while (pj > pl && LT(vp, v[*pk])) ...; *pj = vi`) on the reversed
already-sorted prefix: the entering index bubbles left past strictly
larger keys and stops at the first key not above its own, so equal keys
keep their original relative order. -/
def bubbleRev (v : List ℚ) (x : ℕ) : List ℕ → List ℕ
  | [] => [x]
  | y :: ys =>
    if v.getD x 0 < v.getD y 0 then y :: bubbleRev v x ys else x :: y :: ys

/-- The insertion-sort pass `for (pi = pl + 1; pi <= pr; ++pi)` over a
segment, carrying the sorted prefix reversed. -/
def insPassRev (v : List ℚ) (rpref : List ℕ) : List ℕ → List ℕ
  | [] => rpref.reverse
  | x :: rest => insPassRev v (bubbleRev v x rpref) rest

/-- The insertion sort of the segment `[pl, pr]` of the index array; the
positions outside the segment are untouched. -/
def insertionSortSeg (v : List ℚ) (ts : List ℕ) (pl pr : ℕ) : List ℕ :=
  ts.take pl ++ insPassRev v [] ((ts.drop pl).take (pr + 1 - pl)) ++
    (ts.drop pl).drop (pr + 1 - pl)

/-- `npy_get_msb`: position of the most significant bit. -/
def msbFuel : ℕ → ℕ → ℕ
  | 0, _ => 0
  | fuel + 1, n => if n ≤ 1 then 0 else msbFuel fuel (n / 2) + 1

/-- `npy_get_msb` with sufficient fuel. -/
def npyGetMsb (n : ℕ) : ℕ := msbFuel n n

/-- The driver loop of `npy_aquicksort`: partition large segments
(pushing the larger side on the explicit stack, recursing into the
smaller), insertion-sort segments of at most 16 elements, fall back to
heapsort beyond the depth limit, and pop the stack between segments. -/
def introLoop (v : List ℚ) : ℕ → List ℕ → List (ℕ × ℕ) → Int → ℕ → ℕ → List ℕ
  | 0, ts, _, _, _, _ => ts
  | fuel + 1, ts, stack, depth, pl, pr =>
    if 15 < pr - pl then
      if depth < 0 then
        match stack with
        | [] => aheapsortSeg v ts pl pr
        | (l, r) :: st => introLoop v fuel (aheapsortSeg v ts pl pr) st depth l r
      else
        match partitionStep v ts pl pr with
        | (ts', pi) =>
          if pi - pl < pr - pi then
            introLoop v fuel ts' ((pi + 1, pr) :: stack) (depth - 1) pl (pi - 1)
          else
            introLoop v fuel ts' ((pl, pi - 1) :: stack) (depth - 1) (pi + 1) pr
    else
      match stack with
      | [] => insertionSortSeg v ts pl pr
      | (l, r) :: st => introLoop v fuel (insertionSortSeg v ts pl pr) st depth l r

/-- `np.argsort(v, kind='quicksort')` (numpy's default kind) as
`npy_aquicksort` from the identity index array. -/
def aquicksortArg (v : List ℚ) : List ℕ :=
  introLoop v (2 * v.length + 16) (List.range v.length) []
    (2 * (npyGetMsb v.length : Int)) 0 (v.length - 1)

/-- `order_similarity(matrix_similarity)` =
`list(np.argsort(-np.array(matrix_similarity)))`: indices of the scores
in ascending order of the negated scores, i.e. descending score order. -/
def order_similarity (scores : List ℚ) : List ℕ :=
  aquicksortArg (scores.map (fun x => -x))

theorem getD_cons_set_perm :
    ∀ (t : List ℕ) (m : ℕ) (x : ℕ), m < t.length →
      ((t.getD m 0) :: t.set m x).Perm (x :: t) := by
  intro t
  induction t with
  | nil => intro m x hm; cases hm
  | cons y t' ih =>
    intro m x hm
    match m with
    | 0 => exact List.Perm.swap x y t'
    | m' + 1 =>
      have hm' : m' < t'.length := by simpa using hm
      exact (List.Perm.swap _ _ _).trans
        ((List.Perm.cons y (ih m' x hm')).trans (List.Perm.swap _ _ _))

theorem set_set_perm :
    ∀ (ts : List ℕ) (i j : ℕ), i < ts.length → j < ts.length →
      ((ts.set i (ts.getD j 0)).set j (ts.getD i 0)).Perm ts := by
  intro ts
  induction ts with
  | nil => intro i j hi _; cases hi
  | cons x t ih =>
    intro i j hi hj
    match i, j with
    | 0, 0 => exact List.Perm.refl _
    | 0, m + 1 =>
      have hm : m < t.length := by simpa using hj
      exact getD_cons_set_perm t m x hm
    | n + 1, 0 =>
      have hn : n < t.length := by simpa using hi
      exact getD_cons_set_perm t n x hn
    | n + 1, m + 1 =>
      have hn : n < t.length := by simpa using hi
      have hm : m < t.length := by simpa using hj
      exact List.Perm.cons x (ih n m hn hm)

theorem swapi_perm (ts : List ℕ) (i j : ℕ) : (swapi ts i j).Perm ts := by
  unfold swapi
  split_ifs with h
  · exact set_set_perm ts i j h.1 h.2
  · exact List.Perm.refl ts

theorem ite_swapi_perm (c : Prop) [Decidable c] (ts : List ℕ) (i j : ℕ) :
    (if c then swapi ts i j else ts).Perm ts := by
  split_ifs
  · exact swapi_perm ts i j
  · exact List.Perm.refl ts

theorem partitionLoop_perm (v : List ℚ) (vp : ℚ) :
    ∀ (fuel : ℕ) (ts : List ℕ) (p q : ℕ),
      (partitionLoop v vp fuel ts p q).1.Perm ts := by
  intro fuel
  induction fuel with
  | zero => intro ts p q; exact List.Perm.refl ts
  | succ n ih =>
    intro ts p q
    rw [partitionLoop]
    split_ifs
    · exact List.Perm.refl ts
    · exact (ih _ _ _).trans (swapi_perm ts _ _)

theorem partitionStep_perm (v : List ℚ) (ts : List ℕ) (pl pr : ℕ) :
    (partitionStep v ts pl pr).1.Perm ts := by
  unfold partitionStep
  refine (swapi_perm _ _ _).trans ?_
  refine (partitionLoop_perm v _ _ _ _ _).trans ?_
  refine (swapi_perm _ _ _).trans ?_
  refine (ite_swapi_perm _ _ _ _).trans ?_
  refine (ite_swapi_perm _ _ _ _).trans ?_
  exact ite_swapi_perm _ _ _ _

theorem siftDown_perm (v : List ℚ) (pl n : ℕ) :
    ∀ (fuel : ℕ) (ts : List ℕ) (i : ℕ), (siftDown v pl n fuel ts i).Perm ts := by
  intro fuel
  induction fuel with
  | zero => intro ts i; exact List.Perm.refl ts
  | succ f ih =>
    intro ts i
    rw [siftDown]
    split_ifs
    · exact (ih _ _).trans (swapi_perm ts _ _)
    · exact List.Perm.refl ts
    · exact List.Perm.refl ts

theorem heapLoop1_perm (v : List ℚ) (pl n : ℕ) :
    ∀ (fuel : ℕ) (ts : List ℕ) (l : ℕ), (heapLoop1 v pl n fuel ts l).Perm ts := by
  intro fuel
  induction fuel with
  | zero => intro ts l; exact List.Perm.refl ts
  | succ f ih =>
    intro ts l
    rw [heapLoop1]
    split_ifs
    · exact List.Perm.refl ts
    · exact (ih _ _).trans (siftDown_perm v pl n _ ts l)

theorem heapLoop2_perm (v : List ℚ) (pl : ℕ) :
    ∀ (fuel : ℕ) (ts : List ℕ) (n : ℕ), (heapLoop2 v pl fuel ts n).Perm ts := by
  intro fuel
  induction fuel with
  | zero => intro ts n; exact List.Perm.refl ts
  | succ f ih =>
    intro ts n
    rw [heapLoop2]
    split_ifs
    · exact List.Perm.refl ts
    · exact (ih _ _).trans
        ((siftDown_perm v pl (n - 1) _ _ 1).trans (swapi_perm ts _ _))

theorem aheapsortSeg_perm (v : List ℚ) (ts : List ℕ) (pl pr : ℕ) :
    (aheapsortSeg v ts pl pr).Perm ts := by
  unfold aheapsortSeg
  exact (heapLoop2_perm v pl _ _ _).trans (heapLoop1_perm v pl _ _ ts _)

theorem bubbleRev_perm (v : List ℚ) (x : ℕ) :
    ∀ (l : List ℕ), (bubbleRev v x l).Perm (x :: l) := by
  intro l
  induction l with
  | nil => exact List.Perm.refl _
  | cons y ys ih =>
    rw [bubbleRev]
    split_ifs
    · exact (List.Perm.cons y ih).trans (List.Perm.swap x y ys)
    · exact List.Perm.refl _

theorem insPassRev_perm (v : List ℚ) :
    ∀ (todo rpref : List ℕ), (insPassRev v rpref todo).Perm (rpref ++ todo) := by
  intro todo
  induction todo with
  | nil =>
    intro rpref
    rw [insPassRev, List.append_nil]
    exact List.reverse_perm rpref
  | cons x rest ih =>
    intro rpref
    rw [insPassRev]
    refine (ih (bubbleRev v x rpref)).trans ?_
    refine (List.Perm.append_right rest (bubbleRev_perm v x rpref)).trans ?_
    exact List.perm_middle.symm

theorem insertionSortSeg_perm (v : List ℚ) (ts : List ℕ) (pl pr : ℕ) :
    (insertionSortSeg v ts pl pr).Perm ts := by
  unfold insertionSortSeg
  have h1 : (insPassRev v [] ((ts.drop pl).take (pr + 1 - pl))).Perm
      ((ts.drop pl).take (pr + 1 - pl)) := insPassRev_perm v _ []
  have h2 : (ts.take pl ++ insPassRev v [] ((ts.drop pl).take (pr + 1 - pl)) ++
      (ts.drop pl).drop (pr + 1 - pl)).Perm
      (ts.take pl ++ ((ts.drop pl).take (pr + 1 - pl) ++
        (ts.drop pl).drop (pr + 1 - pl))) := by
    rw [← List.append_assoc]
    exact List.Perm.append (List.Perm.append (List.Perm.refl _) h1)
      (List.Perm.refl _)
  rw [List.take_append_drop, List.take_append_drop] at h2
  exact h2

theorem introLoop_perm (v : List ℚ) :
    ∀ (fuel : ℕ) (ts : List ℕ) (stack : List (ℕ × ℕ)) (depth : Int) (pl pr : ℕ),
      (introLoop v fuel ts stack depth pl pr).Perm ts := by
  intro fuel
  induction fuel with
  | zero => intro ts stack depth pl pr; exact List.Perm.refl ts
  | succ f ih =>
    intro ts stack depth pl pr
    show (if 15 < pr - pl then
        if depth < 0 then
          match stack with
          | [] => aheapsortSeg v ts pl pr
          | (l, r) :: st => introLoop v f (aheapsortSeg v ts pl pr) st depth l r
        else
          match partitionStep v ts pl pr with
          | (ts', pi) =>
            if pi - pl < pr - pi then
              introLoop v f ts' ((pi + 1, pr) :: stack) (depth - 1) pl (pi - 1)
            else
              introLoop v f ts' ((pl, pi - 1) :: stack) (depth - 1) (pi + 1) pr
      else
        match stack with
        | [] => insertionSortSeg v ts pl pr
        | (l, r) :: st =>
          introLoop v f (insertionSortSeg v ts pl pr) st depth l r).Perm ts
    by_cases h1 : 15 < pr - pl
    · rw [if_pos h1]
      by_cases h2 : depth < 0
      · rw [if_pos h2]
        match stack with
        | [] => exact aheapsortSeg_perm v ts pl pr
        | (l, r) :: st =>
          exact (ih _ _ _ _ _).trans (aheapsortSeg_perm v ts pl pr)
      · rw [if_neg h2]
        have hps : (partitionStep v ts pl pr).1.Perm ts := partitionStep_perm v ts pl pr
        rcases hp : partitionStep v ts pl pr with ⟨tsp, pi⟩
        rw [hp] at hps
        show (if pi - pl < pr - pi then
            introLoop v f tsp ((pi + 1, pr) :: stack) (depth - 1) pl (pi - 1)
          else
            introLoop v f tsp ((pl, pi - 1) :: stack) (depth - 1) (pi + 1) pr).Perm ts
        by_cases h3 : pi - pl < pr - pi
        · rw [if_pos h3]
          exact (ih _ _ _ _ _).trans hps
        · rw [if_neg h3]
          exact (ih _ _ _ _ _).trans hps
    · rw [if_neg h1]
      match stack with
      | [] => exact insertionSortSeg_perm v ts pl pr
      | (l, r) :: st =>
        exact (ih _ _ _ _ _).trans (insertionSortSeg_perm v ts pl pr)

theorem aquicksortArg_perm (v : List ℚ) :
    (aquicksortArg v).Perm (List.range v.length) :=
  introLoop_perm v _ _ _ _ _ _

/-- C10. For every similarity score array, `order_similarity` returns a
permutation of the candidate indices `{0, ..., n-1}`: every index appears
exactly once, so reordering the candidate rows by it neither drops nor
duplicates any candidate before the deduplication step. -/
theorem order_similarity_is_permutation (scores : List ℚ) :
    (order_similarity scores).Perm (List.range scores.length) := by
  unfold order_similarity
  have h := aquicksortArg_perm (scores.map (fun x => -x))
  rwa [List.length_map] at h

/-- Ascending key order with ties by original index — the order realised
by the stable insertion path over the (negated) keys the port sorts. -/
def IdxLE (v : List ℚ) (i j : ℕ) : Prop :=
  v.getD i 0 < v.getD j 0 ∨ (v.getD i 0 = v.getD j 0 ∧ i ≤ j)

/-- Output-order relation over the original scores: descending score,
probability ties by ascending candidate index. -/
def RankLE (s : List ℚ) (i j : ℕ) : Prop :=
  s.getD j 0 < s.getD i 0 ∨ (s.getD i 0 = s.getD j 0 ∧ i ≤ j)

theorem mem_bubbleRev {v : List ℚ} {z x : ℕ} {l : List ℕ}
    (h : z ∈ bubbleRev v x l) : z = x ∨ z ∈ l := by
  have hm := (bubbleRev_perm v x l).mem_iff.mp h
  simpa using hm

theorem bubbleRev_pairwise (v : List ℚ) (x : ℕ) :
    ∀ (l : List ℕ), l.Pairwise (fun a b => IdxLE v b a) → (∀ y ∈ l, y < x) →
      (bubbleRev v x l).Pairwise (fun a b => IdxLE v b a) := by
  intro l
  induction l with
  | nil =>
    intro _ _
    exact List.pairwise_singleton _ x
  | cons y ys ih =>
    intro hs hidx
    rw [List.pairwise_cons] at hs
    rw [bubbleRev]
    split_ifs with hlt
    · refine List.Pairwise.cons ?_ (ih hs.2 (fun z hz => hidx z (List.mem_cons_of_mem y hz)))
      intro z hz
      rcases mem_bubbleRev hz with rfl | hz'
      · exact Or.inl hlt
      · exact hs.1 z hz'
    · have hyx : v.getD y 0 ≤ v.getD x 0 := le_of_not_lt hlt
      refine List.Pairwise.cons ?_ (List.Pairwise.cons hs.1 hs.2)
      intro z hz
      rcases List.mem_cons.mp hz with rfl | hz'
      · rcases lt_or_eq_of_le hyx with h | h
        · exact Or.inl h
        · exact Or.inr ⟨h, (hidx z (List.mem_cons_self z ys)).le⟩
      · rcases hs.1 z hz' with h | ⟨heq, _⟩
        · exact Or.inl (lt_of_lt_of_le h hyx)
        · rcases lt_or_eq_of_le (heq.le.trans hyx) with h | h
          · exact Or.inl h
          · exact Or.inr ⟨h, (hidx z (List.mem_cons_of_mem y hz')).le⟩

theorem insPassRev_pairwise (v : List ℚ) :
    ∀ (todo rpref : List ℕ),
      rpref.Pairwise (fun a b => IdxLE v b a) →
      todo.Pairwise (· < ·) →
      (∀ y ∈ rpref, ∀ z ∈ todo, y < z) →
      (insPassRev v rpref todo).Pairwise (IdxLE v) := by
  intro todo
  induction todo with
  | nil =>
    intro rpref hs _ _
    rw [insPassRev]
    exact List.pairwise_reverse.mpr hs
  | cons x rest ih =>
    intro rpref hs ht hsep
    rw [List.pairwise_cons] at ht
    rw [insPassRev]
    refine ih (bubbleRev v x rpref)
      (bubbleRev_pairwise v x rpref hs
        (fun y hy => hsep y hy x (List.mem_cons_self x rest)))
      ht.2 ?_
    intro y hy z hz
    rcases mem_bubbleRev hy with rfl | hy'
    · exact ht.1 z hz
    · exact hsep y hy' z (List.mem_cons_of_mem x hz)

theorem introLoop_small (v : List ℚ) (f : ℕ) (ts : List ℕ) (depth : Int)
    (pl pr : ℕ) (h : pr - pl ≤ 15) :
    introLoop v (f + 1) ts [] depth pl pr = insertionSortSeg v ts pl pr := by
  show (if 15 < pr - pl then
      if depth < 0 then aheapsortSeg v ts pl pr
      else
        match partitionStep v ts pl pr with
        | (ts', pi) =>
          if pi - pl < pr - pi then
            introLoop v f ts' ((pi + 1, pr) :: []) (depth - 1) pl (pi - 1)
          else
            introLoop v f ts' ((pl, pi - 1) :: []) (depth - 1) (pi + 1) pr
    else insertionSortSeg v ts pl pr) = insertionSortSeg v ts pl pr
  rw [if_neg (by omega)]

/-- For at most 16 keys the driver is exactly the stable insertion pass
over the whole index range. -/
theorem aquicksortArg_small (v : List ℚ) (h : v.length ≤ 16) :
    aquicksortArg v = insPassRev v [] (List.range v.length) := by
  unfold aquicksortArg
  rw [introLoop_small v (2 * v.length + 15) (List.range v.length) _ 0
    (v.length - 1) (by omega)]
  rcases Nat.eq_zero_or_pos v.length with h0 | h0
  · rw [h0]; rfl
  · unfold insertionSortSeg
    have he : v.length - 1 + 1 - 0 = v.length := by omega
    rw [List.take_zero, List.drop_zero, he,
      List.take_of_length_le (le_of_eq (List.length_range _)),
      List.drop_eq_nil_of_le (le_of_eq (List.length_range _))]
    simp

theorem getD_map_neg (s : List ℚ) (i : ℕ) :
    (s.map (fun x => -x)).getD i 0 = -(s.getD i 0) := by
  rcases lt_or_ge i s.length with h | h
  · rw [List.getD_eq_getElem _ _ (by simpa using h), List.getD_eq_getElem s 0 h,
      List.getElem_map]
  · rw [List.getD_eq_default _ _ (by simpa using h), List.getD_eq_default s _ h,
      neg_zero]

theorem idxLE_map_neg (s : List ℚ) (i j : ℕ) :
    IdxLE (s.map (fun x => -x)) i j ↔ RankLE s i j := by
  unfold IdxLE RankLE
  rw [getD_map_neg, getD_map_neg, neg_lt_neg_iff, neg_inj]

/-- C7, counterexample.  On 17 equal scores — where every pair of
candidates is tied — numpy's introsort performs one median-of-3
partition and returns
`[0, 14, 13, 12, 11, 10, 9, 15, 8, 6, 5, 4, 3, 2, 1, 7, 16]`:
candidate 14 is ranked before candidate 1 although both are tied and
1 precedes 14 in candidate order, so `order_by_score` does not break
ties by original candidate order (it is not the claimed stable sort). -/
theorem order_similarity_tie_order_counterexample :
    order_similarity (List.replicate 17 (0 : ℚ)) =
      [0, 14, 13, 12, 11, 10, 9, 15, 8, 6, 5, 4, 3, 2, 1, 7, 16] ∧
    (List.replicate 17 (0 : ℚ)).getD 1 0 = (List.replicate 17 (0 : ℚ)).getD 14 0 ∧
    (order_similarity (List.replicate 17 (0 : ℚ))).getD 1 0 = 14 ∧
    (order_similarity (List.replicate 17 (0 : ℚ))).getD 14 0 = 1 ∧
    order_similarity (List.replicate 17 (0 : ℚ)) ≠ List.range 17 :=
  ⟨by decide, by decide, by decide, by decide, by decide⟩

/-! ## The orchestrated search and its frame (`SearchEngine.search`,
`src/core/search_engine.py`; `search_engine_clustering`,
`search_engine.py`) -/

/-- The shared reference data loaded once at startup: the posts table,
the two embedding stores, and the topic index. -/
structure EngineState where
  posts : List Post
  embeddingsTitles : List (Int × Vec)
  embeddingsAnswer : List (Int × Vec)
  topicDocuments : List (ℕ × List Int)
  deriving Repr

/-- `SearchEngine.search(query, top_n)` over the engine state, with the
two query encodings and the inferred topic as inputs (the encoders and
the topic model are external artifacts applied to the query only).

pandas semantics carried by the embedding: `posts[mask]` (boolean-mask
indexing) and `relevant_posts.iloc[ordre]` (fancy integer indexing)
always return new DataFrames, so the column assignment
`top_posts["ParentId"] = top_posts["ParentId"].fillna(...)` writes the
per-query copy — the shared `posts` table is never written.  The state
is therefore threaded explicitly and returned with the per-query result;
`none` models the per-query exceptions (`KeyError` on a topic with no
documents, `KeyError` on a missing embedding, `ValueError` on an empty
candidate dict), which also leave the state untouched. -/
def searchEngineSearch (st : EngineState) (qeAnswer qeTitle : Vec)
    (topicQuery : ℕ) (w1 w3 : ℚ) (topN : Option ℕ) :
    EngineState × Option (List Post) :=
  match st.topicDocuments.lookup topicQuery with
  | none => (st, none)
  | some relevantDocs =>
    if (st.posts.filter (fun p => decide (p.id ∈ relevantDocs))).length = 0 then
      (st, some [])
    else
      match similarity_clustering qeAnswer
        ((st.posts.filter (fun p => decide (p.id ∈ relevantDocs))).map Post.id)
        st.embeddingsAnswer 1024 with
      | none => (st, none)
      | some simAnswer =>
        match similarities_title_clustering qeTitle
          ((st.posts.filter (fun p => decide (p.id ∈ relevantDocs))).map Post.id)
          st.embeddingsTitles 1024 with
        | none => (st, none)
        | some simTitle =>
          let relevantPosts := st.posts.filter (fun p => decide (p.id ∈ relevantDocs))
          let fused := List.zipWith (fun a t => a * w1 + t * w3) simAnswer simTitle
          let ordre := order_similarity fused
          let topPosts := ordre.map (fun i => relevantPosts.getD i default)
          let deduped := dedupRankedPosts topPosts
          (st, some (match topN with | none => deduped | some n => deduped.take n))

/-- `SemanticSearch.closest_semantic_doc` over the state (the alternate,
non-clustering mode): whole-corpus batched similarity, ordering, and
`posts.iloc[ordre[:top_n]]` — an iloc copy, no shared-state write. -/
def closestSemanticDoc (st : EngineState) (qe : Vec) (vecs : List Vec)
    (topN : ℕ) : EngineState × Option (List Post) :=
  match similarity qe vecs 1024 with
  | none => (st, none)
  | some scores =>
    (st, some (((order_similarity scores).take topN).map
      (fun i => st.posts.getD i default)))

/-- `VectorSearch.search` over the state (the lexical mode): per-document
scores from the count-vector cosine kernel (an external numeric kernel
reading only immutable artifacts; its output enters as `scores`),
ordering, and `posts.iloc[order[:top_n]]` — again no shared-state
write. -/
def vectorSearchMode (st : EngineState) (scores : List ℚ) (topN : ℕ) :
    EngineState × List Post :=
  (st, ((order_similarity scores).take topN).map (fun i => st.posts.getD i default))

/-- C8. Evaluating a query in any search mode leaves the shared reference
data unchanged: the posts table (including its ParentId column), both
embedding stores, and the topic index are identical before and after the
call, on the success paths and on every error path alike; only the
transient per-query values (query vectors, score arrays, candidate and
result lists) are created. -/
theorem search_leaves_state_unchanged (st : EngineState) (qeAnswer qeTitle : Vec)
    (topicQuery : ℕ) (w1 w3 : ℚ) (topN : Option ℕ) (qe : Vec) (vecs : List Vec)
    (scores : List ℚ) (n1 n2 : ℕ) :
    (searchEngineSearch st qeAnswer qeTitle topicQuery w1 w3 topN).1 = st ∧
    (closestSemanticDoc st qe vecs n1).1 = st ∧
    (vectorSearchMode st scores n2).1 = st := by
  refine ⟨?_, ?_, rfl⟩
  · unfold searchEngineSearch
    repeat' split
    all_goals rfl
  · unfold closestSemanticDoc
    repeat' split
    all_goals rfl

/-! ### Pointwise facts about reads and swaps -/

theorem swapi_length (ts : List ℕ) (i j : ℕ) : (swapi ts i j).length = ts.length := by
  unfold swapi
  split_ifs
  · simp
  · rfl

theorem getD_set_self (l : List ℕ) (i x : ℕ) (h : i < l.length) :
    (l.set i x).getD i 0 = x := by
  rw [List.getD_eq_getElem _ _ (by simpa using h)]
  exact List.getElem_set_self _

theorem getD_set_ne (l : List ℕ) (i k x : ℕ) (h : i ≠ k) :
    (l.set i x).getD k 0 = l.getD k 0 := by
  rcases lt_or_ge k l.length with hk | hk
  · rw [List.getD_eq_getElem _ _ (by simpa using hk), List.getD_eq_getElem _ _ hk]
    exact List.getElem_set_ne h _
  · rw [List.getD_eq_default _ _ (by simpa using hk), List.getD_eq_default _ _ hk]

theorem geti_swapi_fst (ts : List ℕ) (i j : ℕ) (hi : i < ts.length)
    (hj : j < ts.length) : geti (swapi ts i j) i = geti ts j := by
  unfold swapi
  rw [if_pos ⟨hi, hj⟩]
  unfold geti
  by_cases hij : j = i
  · subst hij
    rw [getD_set_self _ _ _ (by simpa using hi)]
  · rw [getD_set_ne _ _ _ _ hij, getD_set_self _ _ _ hi]

theorem geti_swapi_snd (ts : List ℕ) (i j : ℕ) (hi : i < ts.length)
    (hj : j < ts.length) : geti (swapi ts i j) j = geti ts i := by
  unfold swapi
  rw [if_pos ⟨hi, hj⟩]
  unfold geti
  rw [getD_set_self _ _ _ (by simpa using hj)]

theorem geti_swapi_other (ts : List ℕ) (i j k : ℕ) (hki : k ≠ i) (hkj : k ≠ j) :
    geti (swapi ts i j) k = geti ts k := by
  unfold swapi
  split_ifs
  · unfold geti
    rw [getD_set_ne _ _ _ _ (fun h => hkj h.symm),
      getD_set_ne _ _ _ _ (fun h => hki h.symm)]
  · rfl

theorem vat_swapi_fst (v : List ℚ) (ts : List ℕ) (i j : ℕ) (hi : i < ts.length)
    (hj : j < ts.length) : vat v (swapi ts i j) i = vat v ts j := by
  unfold vat
  rw [geti_swapi_fst ts i j hi hj]

theorem vat_swapi_snd (v : List ℚ) (ts : List ℕ) (i j : ℕ) (hi : i < ts.length)
    (hj : j < ts.length) : vat v (swapi ts i j) j = vat v ts i := by
  unfold vat
  rw [geti_swapi_snd ts i j hi hj]

theorem vat_swapi_other (v : List ℚ) (ts : List ℕ) (i j k : ℕ) (hki : k ≠ i)
    (hkj : k ≠ j) : vat v (swapi ts i j) k = vat v ts k := by
  unfold vat
  rw [geti_swapi_other ts i j k hki hkj]

/-! ### Partition correctness -/

theorem scanUp_spec (v : List ℚ) (ts : List ℕ) (vp : ℚ) (bound : ℕ)
    (hbound : ¬(vat v ts bound < vp)) :
    ∀ (fuel p : ℕ), p < bound → bound - p ≤ fuel →
      p < scanUp v ts vp fuel p ∧ scanUp v ts vp fuel p ≤ bound ∧
      ¬(vat v ts (scanUp v ts vp fuel p) < vp) ∧
      ∀ k, p < k → k < scanUp v ts vp fuel p → vat v ts k < vp := by
  intro fuel
  induction fuel with
  | zero => intro p hp hf; omega
  | succ f ih =>
    intro p hp hf
    rw [scanUp]
    split_ifs with hlt
    · have hne : p + 1 ≠ bound := fun he => hbound (he ▸ hlt)
      have hp1 : p + 1 < bound := by omega
      obtain ⟨h1, h2, h3, h4⟩ := ih (p + 1) hp1 (by omega)
      refine ⟨by omega, h2, h3, ?_⟩
      intro k hk1 hk2
      rcases Nat.eq_or_lt_of_le (Nat.succ_le_of_lt hk1) with he | hlt2
      · exact he ▸ hlt
      · exact h4 k (by omega) hk2
    · exact ⟨by omega, by omega, hlt, fun k hk1 hk2 => by omega⟩

theorem scanDown_spec (v : List ℚ) (ts : List ℕ) (vp : ℚ) (bound : ℕ)
    (hbound : ¬(vp < vat v ts bound)) :
    ∀ (fuel q : ℕ), bound < q → q - bound ≤ fuel →
      scanDown v ts vp fuel q < q ∧ bound ≤ scanDown v ts vp fuel q ∧
      ¬(vp < vat v ts (scanDown v ts vp fuel q)) ∧
      ∀ k, scanDown v ts vp fuel q < k → k < q → vp < vat v ts k := by
  intro fuel
  induction fuel with
  | zero => intro q hq hf; omega
  | succ f ih =>
    intro q hq hf
    rw [scanDown]
    split_ifs with hlt
    · have hne : q - 1 ≠ bound := fun he => hbound (he ▸ hlt)
      have hq1 : bound < q - 1 := by omega
      obtain ⟨h1, h2, h3, h4⟩ := ih (q - 1) hq1 (by omega)
      refine ⟨by omega, h2, h3, ?_⟩
      intro k hk1 hk2
      rcases Nat.lt_or_ge k (q - 1) with hlt2 | hge
      · exact h4 k hk1 hlt2
      · have he : k = q - 1 := by omega
        exact he ▸ hlt
    · exact ⟨by omega, by omega, hlt, fun k hk1 hk2 => by omega⟩

theorem partitionLoop_spec (v : List ℚ) (vp : ℚ) (pl pr : ℕ) :
    ∀ (fuel : ℕ) (ts : List ℕ) (p q : ℕ) (ts' : List ℕ) (pi : ℕ),
      partitionLoop v vp fuel ts p q = (ts', pi) →
      q - p ≤ fuel →
      pl ≤ p → p < q → q ≤ pr - 1 → pl + 2 ≤ pr → pr < ts.length →
      (∀ k, pl ≤ k → k ≤ p → vat v ts k ≤ vp) →
      (∀ k, q ≤ k → k ≤ pr → vp ≤ vat v ts k) →
      p < pi ∧ pi ≤ q ∧
      (∀ k, pl ≤ k → k < pi → vat v ts' k ≤ vp) ∧
      (∀ k, pi ≤ k → k ≤ pr → vp ≤ vat v ts' k) ∧
      (∀ k, k ≤ p ∨ pr - 1 ≤ k → geti ts' k = geti ts k) ∧
      ts'.length = ts.length := by
  intro fuel
  induction fuel with
  | zero => intro ts p q ts' pi _ hf hplp hpq hq hpl2 hpr hL hR; omega
  | succ f ih =>
    intro ts p q ts' pi heq hf hplp hpq hq hpl2 hpr hL hR
    rw [partitionLoop] at heq
    have hup := scanUp_spec v ts vp q
      (not_lt_of_ge (hR q le_rfl (by omega))) (ts.length + 2) p hpq (by omega)
    have hdown := scanDown_spec v ts vp p
      (not_lt_of_ge (hL p hplp le_rfl)) (ts.length + 2) q hpq (by omega)
    obtain ⟨hu1, hu2, hu3, hu4⟩ := hup
    obtain ⟨hd1, hd2, hd3, hd4⟩ := hdown
    set p' := scanUp v ts vp (ts.length + 2) p with hp'
    set q' := scanDown v ts vp (ts.length + 2) q with hq'
    split_ifs at heq with hcross
    · -- exit: result (ts, p')
      injection heq with he1 he2
      subst he1
      subst he2
      refine ⟨hu1, hu2, ?_, ?_, fun k _ => rfl, rfl⟩
      · intro k hk1 hk2
        rcases Nat.lt_or_ge p k with hpk | hkp
        · exact le_of_lt (hu4 k hpk hk2)
        · exact hL k hk1 hkp
      · intro k hk1 hk2
        rcases Nat.eq_or_lt_of_le hk1 with he | hlt
        · rw [← he]; exact le_of_not_lt hu3
        · rcases Nat.lt_or_ge k q with hkq | hqk
          · exact le_of_lt (hd4 k (by omega) hkq)
          · exact hR k hqk hk2
    · -- continue: swap and recurse
      push_neg at hcross
      have hp'len : p' < ts.length := by omega
      have hq'len : q' < ts.length := by omega
      have hL2 : ∀ k, pl ≤ k → k ≤ p' → vat v (swapi ts p' q') k ≤ vp := by
        intro k hk1 hk2
        rcases Nat.eq_or_lt_of_le hk2 with he | hlt
        · subst he
          rw [vat_swapi_fst v ts p' q' hp'len hq'len]
          exact le_of_not_lt hd3
        · rw [vat_swapi_other v ts p' q' k (by omega) (by omega)]
          rcases Nat.lt_or_ge p k with hpk | hkp
          · exact le_of_lt (hu4 k hpk hlt)
          · exact hL k hk1 hkp
      have hR2 : ∀ k, q' ≤ k → k ≤ pr → vp ≤ vat v (swapi ts p' q') k := by
        intro k hk1 hk2
        rcases Nat.eq_or_lt_of_le hk1 with he | hlt
        · rw [← he]
          rw [vat_swapi_snd v ts p' q' hp'len hq'len]
          exact le_of_not_lt hu3
        · rw [vat_swapi_other v ts p' q' k (by omega) (by omega)]
          rcases Nat.lt_or_ge k q with hkq | hqk
          · exact le_of_lt (hd4 k hlt hkq)
          · exact hR k hqk hk2
      obtain ⟨hc1, hc2, hc3, hc4, hc5, hc6⟩ := ih (swapi ts p' q') p' q' ts' pi heq
        (by omega) (by omega) (by omega) (by omega) hpl2
        (by rw [swapi_length]; exact hpr) hL2 hR2
      refine ⟨by omega, by omega, hc3, hc4, ?_, by rw [hc6, swapi_length]⟩
      intro k hk
      rw [hc5 k (by rcases hk with hk | hk; exact Or.inl (by omega); exact Or.inr hk)]
      rcases hk with hk | hk
      · exact geti_swapi_other ts p' q' k (by omega) (by omega)
      · exact geti_swapi_other ts p' q' k (by omega) (by omega)

theorem partitionStep_spec (v : List ℚ) (ts : List ℕ) (pl pr : ℕ)
    (ts' : List ℕ) (pi : ℕ)
    (heq : partitionStep v ts pl pr = (ts', pi))
    (h16 : 15 < pr - pl) (hpr : pr < ts.length) :
    pl < pi ∧ pi < pr ∧
    (∀ k, pl ≤ k → k < pi → vat v ts' k ≤ vat v ts' pi) ∧
    (∀ k, pi < k → k ≤ pr → vat v ts' pi ≤ vat v ts' k) ∧
    (∀ k, k < pl ∨ pr < k → geti ts' k = geti ts k) ∧
    ts'.length = ts.length := by
  set pm := pl + (pr - pl) / 2 with hpm
  set ts1 := if vat v ts pm < vat v ts pl then swapi ts pm pl else ts with hts1
  set ts2 := if vat v ts1 pr < vat v ts1 pm then swapi ts1 pr pm else ts1 with hts2
  set ts3 := if vat v ts2 pm < vat v ts2 pl then swapi ts2 pm pl else ts2 with hts3
  set vp := vat v ts3 pm with hvp
  set ts4 := swapi ts3 pm (pr - 1) with hts4
  have heq2 : (swapi (partitionLoop v vp (pr - pl + 2) ts4 pl (pr - 1)).1
      (partitionLoop v vp (pr - pl + 2) ts4 pl (pr - 1)).2 (pr - 1),
      (partitionLoop v vp (pr - pl + 2) ts4 pl (pr - 1)).2) = (ts', pi) := heq
  have hplpm : pl < pm := by omega
  have hpmpr1 : pm < pr - 1 := by omega
  have hlen1 : ts1.length = ts.length := by
    rw [hts1]; split_ifs; exacts [swapi_length ts pm pl, rfl]
  have hlen2 : ts2.length = ts.length := by
    rw [hts2]; split_ifs; exacts [(swapi_length ts1 pr pm).trans hlen1, hlen1]
  have hlen3 : ts3.length = ts.length := by
    rw [hts3]; split_ifs; exacts [(swapi_length ts2 pm pl).trans hlen2, hlen2]
  have hlen4 : ts4.length = ts.length := by
    rw [hts4, swapi_length]; exact hlen3
  have hpmlen1 : pm < ts1.length := by omega
  have hpllen1 : pl < ts1.length := by omega
  have hprlen1 : pr < ts1.length := by omega
  have hpmlen2 : pm < ts2.length := by omega
  have hpllen2 : pl < ts2.length := by omega
  have hprlen2 : pr < ts2.length := by omega
  have hpmlen3 : pm < ts3.length := by omega
  have hpr1len3 : pr - 1 < ts3.length := by omega
  -- median-of-3: after the three conditional swaps the keys at pl, pm, pr
  -- are in non-decreasing order
  have hS1 : vat v ts1 pl ≤ vat v ts1 pm := by
    rw [hts1]
    split_ifs with c1
    · rw [vat_swapi_snd v ts pm pl (by omega) (by omega),
        vat_swapi_fst v ts pm pl (by omega) (by omega)]
      exact le_of_lt c1
    · exact le_of_not_lt c1
  have hT1 : vat v ts2 pm ≤ vat v ts2 pr := by
    rw [hts2]
    split_ifs with c2
    · rw [vat_swapi_snd v ts1 pr pm hprlen1 hpmlen1,
        vat_swapi_fst v ts1 pr pm hprlen1 hpmlen1]
      exact le_of_lt c2
    · exact le_of_not_lt c2
  have hU : vat v ts2 pl ≤ vat v ts2 pr := by
    rw [hts2]
    split_ifs with c2
    · rw [vat_swapi_other v ts1 pr pm pl (by omega) (by omega),
        vat_swapi_fst v ts1 pr pm hprlen1 hpmlen1]
      exact hS1
    · calc vat v ts1 pl ≤ vat v ts1 pm := hS1
        _ ≤ vat v ts1 pr := le_of_not_lt c2
  have hF1 : vat v ts3 pl ≤ vat v ts3 pm := by
    rw [hts3]
    split_ifs with c3
    · rw [vat_swapi_snd v ts2 pm pl hpmlen2 hpllen2,
        vat_swapi_fst v ts2 pm pl hpmlen2 hpllen2]
      exact le_of_lt c3
    · exact le_of_not_lt c3
  have hF2 : vat v ts3 pm ≤ vat v ts3 pr := by
    rw [hts3]
    split_ifs with c3
    · rw [vat_swapi_fst v ts2 pm pl hpmlen2 hpllen2,
        vat_swapi_other v ts2 pm pl pr (by omega) (by omega)]
      exact hU
    · exact hT1
  have hmid : ∀ k, k ≠ pl → k ≠ pm → k ≠ pr → geti ts3 k = geti ts k := by
    intro k hk1 hk2 hk3
    have g1 : geti ts1 k = geti ts k := by
      rw [hts1]; split_ifs
      · exact geti_swapi_other ts pm pl k hk2 hk1
      · rfl
    have g2 : geti ts2 k = geti ts1 k := by
      rw [hts2]; split_ifs
      · exact geti_swapi_other ts1 pr pm k hk3 hk2
      · rfl
    have g3 : geti ts3 k = geti ts2 k := by
      rw [hts3]; split_ifs
      · exact geti_swapi_other ts2 pm pl k hk2 hk1
      · rfl
    rw [g3, g2, g1]
  -- the stash: position pr - 1 now holds the pivot
  have h4p : vat v ts4 (pr - 1) = vp := by
    rw [hts4, vat_swapi_snd v ts3 pm (pr - 1) hpmlen3 hpr1len3]
  have h4l : vat v ts4 pl ≤ vp := by
    rw [hts4, vat_swapi_other v ts3 pm (pr - 1) pl (by omega) (by omega)]
    exact hF1
  have h4r : vp ≤ vat v ts4 pr := by
    rw [hts4, vat_swapi_other v ts3 pm (pr - 1) pr (by omega) (by omega)]
    exact hF2
  have h4mid : ∀ k, k ≠ pm → k ≠ pr - 1 → geti ts4 k = geti ts3 k := by
    intro k hk1 hk2
    rw [hts4]
    exact geti_swapi_other ts3 pm (pr - 1) k hk1 hk2
  -- run the exchange loop
  rcases hloopeq : partitionLoop v vp (pr - pl + 2) ts4 pl (pr - 1) with ⟨ts5, pi5⟩
  rw [hloopeq] at heq2
  have heq3 : (swapi ts5 pi5 (pr - 1), pi5) = (ts', pi) := heq2
  injection heq3 with he1 he2
  obtain ⟨hl1, hl2, hl3, hl4, hl5, hl6⟩ :=
    partitionLoop_spec v vp pl pr (pr - pl + 2) ts4 pl (pr - 1) ts5 pi5 hloopeq
      (by omega) le_rfl (by omega) le_rfl (by omega) (by omega)
      (by
        intro k hk1 hk2
        have hk : k = pl := by omega
        rw [hk]; exact h4l)
      (by
        intro k hk1 hk2
        rcases Nat.eq_or_lt_of_le hk1 with hk | hk
        · rw [← hk, h4p]
        · have hk' : k = pr := by omega
          rw [hk']; exact h4r)
  subst he2
  subst he1
  have hpi5le : pi5 ≤ pr - 1 := hl2
  have hts5len : ts5.length = ts.length := by omega
  have hpilen : pi5 < ts5.length := by omega
  have hpr1len5 : pr - 1 < ts5.length := by omega
  -- the final pivot placement
  have hfin_pi : vat v (swapi ts5 pi5 (pr - 1)) pi5 = vp := by
    rw [vat_swapi_fst v ts5 pi5 (pr - 1) hpilen hpr1len5]
    unfold vat
    rw [hl5 (pr - 1) (Or.inr le_rfl)]
    exact h4p
  refine ⟨hl1, by omega, ?_, ?_, ?_, by rw [swapi_length]; omega⟩
  · intro k hk1 hk2
    rw [hfin_pi, vat_swapi_other v ts5 pi5 (pr - 1) k (by omega) (by omega)]
    exact hl3 k hk1 hk2
  · intro k hk1 hk2
    rw [hfin_pi]
    by_cases hkpr1 : k = pr - 1
    · rw [hkpr1, vat_swapi_snd v ts5 pi5 (pr - 1) hpilen hpr1len5]
      exact hl4 pi5 le_rfl (by omega)
    · rw [vat_swapi_other v ts5 pi5 (pr - 1) k (by omega) hkpr1]
      exact hl4 k (by omega) hk2
  · intro k hk
    have hk1 : geti (swapi ts5 pi5 (pr - 1)) k = geti ts5 k :=
      geti_swapi_other ts5 pi5 (pr - 1) k (by omega) (by omega)
    rw [hk1, hl5 k (by omega)]
    rw [h4mid k (by omega) (by omega)]
    exact hmid k (by omega) (by omega) (by omega)

/-- The contiguous slice of positions `[l, r]` of the index array. -/
def segSlice (ts : List ℕ) (l r : ℕ) : List ℕ := (ts.drop l).take (r + 1 - l)

theorem length_segSlice (ts : List ℕ) (l r : ℕ) (hr : r < ts.length) (hlr : l ≤ r) :
    (segSlice ts l r).length = r + 1 - l := by
  unfold segSlice
  rw [List.length_take, List.length_drop]
  omega

theorem getD_segSlice (ts : List ℕ) (l r o : ℕ) (hr : r < ts.length)
    (hlr : l ≤ r) (ho : o ≤ r - l) :
    (segSlice ts l r).getD o 0 = geti ts (l + o) := by
  have hlen : (segSlice ts l r).length = r + 1 - l := length_segSlice ts l r hr hlr
  have ho2 : o < (segSlice ts l r).length := by omega
  have hlo : l + o < ts.length := by omega
  rw [List.getD_eq_getElem _ _ ho2]
  unfold geti
  rw [List.getD_eq_getElem _ _ hlo]
  unfold segSlice
  simp [List.getElem_take, List.getElem_drop]

theorem mem_segSlice (ts : List ℕ) (l r : ℕ) (hr : r < ts.length) (x : ℕ) :
    x ∈ segSlice ts l r ↔ ∃ k, l ≤ k ∧ k ≤ r ∧ geti ts k = x := by
  by_cases hlr : l ≤ r
  · have hlen : (segSlice ts l r).length = r + 1 - l := length_segSlice ts l r hr hlr
    constructor
    · intro hx
      obtain ⟨o, ho, hox⟩ := List.mem_iff_getElem.mp hx
      refine ⟨l + o, by omega, by omega, ?_⟩
      rw [← getD_segSlice ts l r o hr hlr (by omega),
        List.getD_eq_getElem _ _ ho, hox]
    · rintro ⟨k, hk1, hk2, hk3⟩
      have ho2 : k - l < (segSlice ts l r).length := by omega
      have : (segSlice ts l r).getD (k - l) 0 = x := by
        rw [getD_segSlice ts l r (k - l) hr hlr (by omega)]
        have : l + (k - l) = k := by omega
        rw [this, hk3]
      rw [List.getD_eq_getElem _ _ ho2] at this
      exact this ▸ List.getElem_mem ho2
  · constructor
    · intro hx
      have h0 : r + 1 - l = 0 := by omega
      unfold segSlice at hx
      rw [h0, List.take_zero] at hx
      cases hx
    · rintro ⟨k, hk1, hk2, _⟩
      omega

theorem take_eq_of_geti_eq (ts ts2 : List ℕ) (l : ℕ)
    (hlen : ts2.length = ts.length)
    (h : ∀ k, k < l → geti ts2 k = geti ts k) :
    ts2.take l = ts.take l := by
  apply List.ext_getElem
  · rw [List.length_take, List.length_take, hlen]
  · intro i h1 h2
    have hi : i < l := by rw [List.length_take] at h1; omega
    have hi2 : i < ts2.length := by rw [List.length_take] at h1; omega
    have hi3 : i < ts.length := by omega
    have hh := h i hi
    unfold geti at hh
    rw [List.getD_eq_getElem _ _ hi2, List.getD_eq_getElem _ _ hi3] at hh
    simpa [List.getElem_take] using hh

theorem drop_eq_of_geti_eq (ts ts2 : List ℕ) (r : ℕ)
    (hlen : ts2.length = ts.length)
    (h : ∀ k, r < k → geti ts2 k = geti ts k) :
    ts2.drop (r + 1) = ts.drop (r + 1) := by
  apply List.ext_getElem
  · rw [List.length_drop, List.length_drop, hlen]
  · intro i h1 h2
    have hi2 : r + 1 + i < ts2.length := by rw [List.length_drop] at h1; omega
    have hi3 : r + 1 + i < ts.length := by omega
    have hh := h (r + 1 + i) (by omega)
    unfold geti at hh
    rw [List.getD_eq_getElem _ _ hi2, List.getD_eq_getElem _ _ hi3] at hh
    simpa [List.getElem_drop] using hh

theorem segSlice_decomp (ts : List ℕ) (l r : ℕ) :
    ts.take l ++ segSlice ts l r ++ ts.drop (r + 1 - l + l) = ts := by
  unfold segSlice
  rw [List.append_assoc]
  have h1 : (ts.drop l).drop (r + 1 - l) = ts.drop (r + 1 - l + l) := by
    rw [List.drop_drop]
    congr 1
    omega
  rw [← h1, List.take_append_drop, List.take_append_drop]

theorem segSlice_perm_of_perm (ts ts2 : List ℕ) (l r : ℕ)
    (hperm : ts2.Perm ts) (hlen : ts2.length = ts.length)
    (hout : ∀ k, k < l ∨ r < k → geti ts2 k = geti ts k) (hlr : l ≤ r) :
    (segSlice ts2 l r).Perm (segSlice ts l r) := by
  have ht : ts2.take l = ts.take l :=
    take_eq_of_geti_eq ts ts2 l hlen (fun k hk => hout k (Or.inl hk))
  have hd : ts2.drop (r + 1) = ts.drop (r + 1) :=
    drop_eq_of_geti_eq ts ts2 r hlen (fun k hk => hout k (Or.inr hk))
  have he : r + 1 - l + l = r + 1 := by omega
  rw [List.perm_iff_count]
  intro a
  have h2 := List.perm_iff_count.mp hperm a
  conv_lhs at h2 => rw [← segSlice_decomp ts2 l r]
  conv_rhs at h2 => rw [← segSlice_decomp ts l r]
  rw [he] at h2
  simp only [List.count_append] at h2
  rw [ht, hd] at h2
  omega

theorem exists_source (ts ts2 : List ℕ) (l r : ℕ)
    (hperm : ts2.Perm ts) (hlen : ts2.length = ts.length)
    (hout : ∀ k, k < l ∨ r < k → geti ts2 k = geti ts k)
    (hr : r < ts.length) (x : ℕ) (hx1 : l ≤ x) (hx2 : x ≤ r) :
    ∃ j, l ≤ j ∧ j ≤ r ∧ geti ts2 x = geti ts j := by
  have hsp := segSlice_perm_of_perm ts ts2 l r hperm hlen hout (le_trans hx1 hx2)
  have hr2 : r < ts2.length := by omega
  have hmem : geti ts2 x ∈ segSlice ts2 l r :=
    (mem_segSlice ts2 l r hr2 _).mpr ⟨x, hx1, hx2, rfl⟩
  have hmem2 : geti ts2 x ∈ segSlice ts l r := hsp.mem_iff.mp hmem
  obtain ⟨j, hj1, hj2, hj3⟩ := (mem_segSlice ts l r hr _).mp hmem2
  exact ⟨j, hj1, hj2, hj3.symm⟩

theorem bubbleRev_sorted_val (v : List ℚ) (x : ℕ) :
    ∀ (l : List ℕ), l.Pairwise (fun a b => v.getD b 0 ≤ v.getD a 0) →
      (bubbleRev v x l).Pairwise (fun a b => v.getD b 0 ≤ v.getD a 0) := by
  intro l
  induction l with
  | nil => intro _; exact List.pairwise_singleton _ x
  | cons y ys ih =>
    intro hs
    rw [List.pairwise_cons] at hs
    rw [bubbleRev]
    split_ifs with hlt
    · refine List.Pairwise.cons ?_ (ih hs.2)
      intro z hz
      rcases mem_bubbleRev hz with rfl | hz'
      · exact le_of_lt hlt
      · exact hs.1 z hz'
    · refine List.Pairwise.cons ?_ (List.Pairwise.cons hs.1 hs.2)
      intro z hz
      rcases List.mem_cons.mp hz with rfl | hz'
      · exact le_of_not_lt hlt
      · exact le_trans (hs.1 z hz') (le_of_not_lt hlt)

theorem insPassRev_sorted_val (v : List ℚ) :
    ∀ (todo rpref : List ℕ),
      rpref.Pairwise (fun a b => v.getD b 0 ≤ v.getD a 0) →
      (insPassRev v rpref todo).Pairwise (fun a b => v.getD a 0 ≤ v.getD b 0) := by
  intro todo
  induction todo with
  | nil =>
    intro rpref hs
    rw [insPassRev]
    exact List.pairwise_reverse.mpr hs
  | cons x rest ih =>
    intro rpref hs
    rw [insPassRev]
    exact ih (bubbleRev v x rpref) (bubbleRev_sorted_val v x rpref hs)

theorem insertionSortSeg_degenerate (v : List ℚ) (ts : List ℕ) (pl pr : ℕ)
    (h : pr < pl) : insertionSortSeg v ts pl pr = ts := by
  unfold insertionSortSeg
  have h0 : pr + 1 - pl = 0 := by omega
  rw [h0, List.take_zero, List.drop_zero]
  show ts.take pl ++ insPassRev v [] [] ++ ts.drop pl = ts
  rw [insPassRev]
  show ts.take pl ++ [] ++ ts.drop pl = ts
  rw [List.append_nil, List.take_append_drop]

theorem insertionSortSeg_out_of_range (v : List ℚ) (ts : List ℕ) (pl pr : ℕ)
    (h : ts.length ≤ pl) : insertionSortSeg v ts pl pr = ts := by
  unfold insertionSortSeg
  rw [List.drop_eq_nil_of_le h, List.take_of_length_le h]
  show ts ++ insPassRev v [] (List.take (pr + 1 - pl) []) ++
    List.drop (pr + 1 - pl) [] = ts
  rw [List.take_nil, List.drop_nil, insPassRev]
  show ts ++ [] ++ [] = ts
  simp

theorem length_insPassRev (v : List ℚ) (rpref todo : List ℕ) :
    (insPassRev v rpref todo).length = rpref.length + todo.length := by
  have h := (insPassRev_perm v todo rpref).length_eq
  rwa [List.length_append] at h

theorem geti_insertionSortSeg_outside (v : List ℚ) (ts : List ℕ) (pl pr k : ℕ)
    (hk : k < pl ∨ pr < k) :
    geti (insertionSortSeg v ts pl pr) k = geti ts k := by
  by_cases hdeg : pr < pl
  · rw [insertionSortSeg_degenerate v ts pl pr hdeg]
  by_cases hpl : ts.length ≤ pl
  · rw [insertionSortSeg_out_of_range v ts pl pr hpl]
  push_neg at hdeg hpl
  by_cases hkL : ts.length ≤ k
  · have hlen := (insertionSortSeg_perm v ts pl pr).length_eq
    unfold geti
    rw [List.getD_eq_default _ _ (by omega), List.getD_eq_default _ _ (by omega)]
  push_neg at hkL
  have hA : (ts.take pl).length = pl := by rw [List.length_take]; omega
  have hBlen : (insPassRev v [] ((ts.drop pl).take (pr + 1 - pl))).length =
      ((ts.drop pl).take (pr + 1 - pl)).length := by
    rw [length_insPassRev]; simp
  rcases hk with hk | hk
  · unfold insertionSortSeg geti
    rw [List.getD_append _ _ _ _ (by rw [List.length_append, hA]; omega),
      List.getD_append _ _ _ _ (by omega)]
    rw [List.getD_eq_getElem _ _ (by rw [hA]; omega),
      List.getD_eq_getElem _ _ hkL]
    simp [List.getElem_take]
  · -- pr < k < ts.length, pl ≤ pr so pr + 1 ≤ ts.length
    have hmid : ((ts.drop pl).take (pr + 1 - pl)).length = pr + 1 - pl := by
      rw [List.length_take, List.length_drop]; omega
    have hAB : (ts.take pl ++ insPassRev v [] ((ts.drop pl).take (pr + 1 - pl))).length
        = pr + 1 := by
      rw [List.length_append, hA, hBlen, hmid]; omega
    unfold insertionSortSeg geti
    rw [List.getD_append_right _ _ _ _ (by rw [hAB]; omega), hAB]
    have hC : (ts.drop pl).drop (pr + 1 - pl) = ts.drop (pr + 1) := by
      rw [List.drop_drop]
      congr 1
      omega
    rw [hC]
    rw [List.getD_eq_getElem _ _ (by rw [List.length_drop]; omega),
      List.getD_eq_getElem _ _ hkL]
    have : pr + 1 + (k - (pr + 1)) = k := by omega
    simp [List.getElem_drop, this]

theorem geti_insertionSortSeg_mid (v : List ℚ) (ts : List ℕ) (pl pr j : ℕ)
    (hpr : pr < ts.length) (h1 : pl ≤ j) (h2 : j ≤ pr) :
    geti (insertionSortSeg v ts pl pr) j =
      (insPassRev v [] ((ts.drop pl).take (pr + 1 - pl))).getD (j - pl) 0 := by
  have hA : (ts.take pl).length = pl := by rw [List.length_take]; omega
  have hmid : ((ts.drop pl).take (pr + 1 - pl)).length = pr + 1 - pl := by
    rw [List.length_take, List.length_drop]; omega
  have hBlen : (insPassRev v [] ((ts.drop pl).take (pr + 1 - pl))).length =
      pr + 1 - pl := by
    rw [length_insPassRev]; simp [hmid]
  unfold insertionSortSeg geti
  rw [List.getD_append _ _ _ _ (by rw [List.length_append, hA, hBlen]; omega),
    List.getD_append_right _ _ _ _ (by rw [hA]; omega), hA]

theorem insertionSortSeg_sorted (v : List ℚ) (ts : List ℕ) (pl pr : ℕ)
    (hpr : pr < ts.length) :
    ∀ j k, pl ≤ j → j ≤ k → k ≤ pr →
      vat v (insertionSortSeg v ts pl pr) j ≤
        vat v (insertionSortSeg v ts pl pr) k := by
  intro j k hj hjk hk
  rcases Nat.eq_or_lt_of_le hjk with rfl | hjk
  · exact le_refl _
  have hsorted : (insPassRev v [] ((ts.drop pl).take (pr + 1 - pl))).Pairwise
      (fun a b => v.getD a 0 ≤ v.getD b 0) :=
    insPassRev_sorted_val v ((ts.drop pl).take (pr + 1 - pl)) [] List.Pairwise.nil
  have hmid : ((ts.drop pl).take (pr + 1 - pl)).length = pr + 1 - pl := by
    rw [List.length_take, List.length_drop]; omega
  have hBlen : (insPassRev v [] ((ts.drop pl).take (pr + 1 - pl))).length =
      pr + 1 - pl := by
    rw [length_insPassRev]; simp [hmid]
  have hjb : j - pl < (insPassRev v [] ((ts.drop pl).take (pr + 1 - pl))).length := by
    omega
  have hkb : k - pl < (insPassRev v [] ((ts.drop pl).take (pr + 1 - pl))).length := by
    omega
  have hrel := List.pairwise_iff_getElem.mp hsorted (j - pl) (k - pl) hjb hkb
    (by omega)
  unfold vat
  rw [geti_insertionSortSeg_mid v ts pl pr j hpr hj (by omega),
    geti_insertionSortSeg_mid v ts pl pr k hpr (by omega) hk,
    List.getD_eq_getElem _ _ hjb, List.getD_eq_getElem _ _ hkb]
  exact hrel

/-! ### Heapsort correctness -/

/-- The max-heap property at 1-based node `j` of the heap laid out over
`tosort[pl .. pl+n-1]` (`a[x] = tosort[pl+x-1]`): each present child key
is at most the parent key. -/
def heapProp (v : List ℚ) (pl n : ℕ) (ts : List ℕ) (j : ℕ) : Prop :=
  (2 * j ≤ n → vat v ts (pl + 2 * j - 1) ≤ vat v ts (pl + j - 1)) ∧
  (2 * j + 1 ≤ n → vat v ts (pl + 2 * j) ≤ vat v ts (pl + j - 1))

/-- `j` lies in the subtree rooted at `i` of the 1-based binary heap. -/
def inSub (i j : ℕ) : Prop := ∃ k, j / 2 ^ k = i

theorem inSub_self (i : ℕ) : inSub i i := ⟨0, by simp⟩

theorem inSub_child {i c j : ℕ} (hc : c = 2 * i ∨ c = 2 * i + 1)
    (h : inSub c j) : inSub i j := by
  obtain ⟨k, hk⟩ := h
  refine ⟨k + 1, ?_⟩
  rw [pow_succ, ← Nat.div_div_eq_div_mul, hk]
  rcases hc with rfl | rfl <;> omega

theorem not_inSub_of_lt {c j : ℕ} (h : j < c) : ¬ inSub c j := by
  rintro ⟨k, hk⟩
  have := Nat.div_le_self j (2 ^ k)
  omega

theorem not_inSub_sibling {i c s : ℕ} (hi : 1 ≤ i)
    (hc : c = 2 * i ∨ c = 2 * i + 1) (hs : s = 2 * i ∨ s = 2 * i + 1)
    (hne : s ≠ c) : ¬ inSub c s := by
  rintro ⟨k, hk⟩
  match k with
  | 0 => simp at hk; omega
  | k' + 1 =>
    rw [pow_succ', ← Nat.div_div_eq_div_mul] at hk
    have h2 : s / 2 = i := by omega
    rw [h2] at hk
    have := Nat.div_le_self i (2 ^ k')
    omega

theorem not_inSub_between {i c j : ℕ} (hc : c = 2 * i ∨ c = 2 * i + 1)
    (h1 : i < j) (h2 : j < c) :
    ¬ inSub c (2 * j) ∧ ¬ inSub c (2 * j + 1) := by
  constructor
  · rintro ⟨k, hk⟩
    match k with
    | 0 => simp at hk; omega
    | k' + 1 =>
      rw [pow_succ', ← Nat.div_div_eq_div_mul] at hk
      have h3 : 2 * j / 2 = j := by omega
      rw [h3] at hk
      have := Nat.div_le_self j (2 ^ k')
      omega
  · rintro ⟨k, hk⟩
    match k with
    | 0 => simp at hk; omega
    | k' + 1 =>
      rw [pow_succ', ← Nat.div_div_eq_div_mul] at hk
      have h3 : (2 * j + 1) / 2 = j := by omega
      rw [h3] at hk
      have := Nat.div_le_self j (2 ^ k')
      omega

/-- The chosen sift-down child is one of the two children, is inside the
heap, and dominates both present children. -/
theorem heapChild_cases (v : List ℚ) (ts : List ℕ) (pl n i : ℕ)
    (h2i : 2 * i ≤ n) :
    (heapChild v ts pl n i = 2 * i ∨ heapChild v ts pl n i = 2 * i + 1) ∧
    heapChild v ts pl n i ≤ n ∧
    vat v ts (pl + 2 * i - 1) ≤ vat v ts (pl + heapChild v ts pl n i - 1) ∧
    (2 * i < n → vat v ts (pl + 2 * i) ≤ vat v ts (pl + heapChild v ts pl n i - 1)) := by
  unfold heapChild
  split_ifs with h
  · have hp : pl + (2 * i + 1) - 1 = pl + 2 * i := by omega
    refine ⟨Or.inr rfl, by omega, ?_, ?_⟩
    · rw [hp]
      exact le_of_lt h.2
    · intro _
      rw [hp]
  · refine ⟨Or.inl rfl, by omega, le_refl _, ?_⟩
    intro hlt
    exact le_of_not_lt (fun hl => h ⟨hlt, hl⟩)

theorem siftDown_spec (v : List ℚ) (pl n : ℕ) :
    ∀ (fuel : ℕ) (ts : List ℕ) (i : ℕ),
      1 ≤ i → n + 1 ≤ fuel + i → pl + n ≤ ts.length →
      (∀ j, i < j → heapProp v pl n ts j) →
      (∀ j, i ≤ j → heapProp v pl n (siftDown v pl n fuel ts i) j) ∧
      (∀ x, x < pl ∨ pl + n ≤ x →
        geti (siftDown v pl n fuel ts i) x = geti ts x) ∧
      (∀ j, 1 ≤ j → ¬ inSub i j →
        geti (siftDown v pl n fuel ts i) (pl + j - 1) = geti ts (pl + j - 1)) ∧
      (siftDown v pl n fuel ts i).length = ts.length ∧
      (vat v (siftDown v pl n fuel ts i) (pl + i - 1) = vat v ts (pl + i - 1) ∨
       (2 * i ≤ n ∧ vat v (siftDown v pl n fuel ts i) (pl + i - 1) =
         vat v ts (pl + heapChild v ts pl n i - 1))) := by
  intro fuel
  induction fuel with
  | zero =>
    intro ts i hi hfuel hlen hheap
    refine ⟨?_, fun x _ => rfl, fun j _ _ => rfl, rfl, Or.inl rfl⟩
    intro j hj
    rcases Nat.eq_or_lt_of_le hj with rfl | hij
    · exact ⟨fun hg => absurd hg (by omega), fun hg => absurd hg (by omega)⟩
    · exact hheap j hij
  | succ f ih =>
    intro ts i hi hfuel hlen hheap
    have hunf : siftDown v pl n (f + 1) ts i =
        if 2 * i ≤ n then
          if vat v ts (pl + i - 1) < vat v ts (pl + heapChild v ts pl n i - 1) then
            siftDown v pl n f
              (swapi ts (pl + i - 1) (pl + heapChild v ts pl n i - 1))
              (heapChild v ts pl n i)
          else ts
        else ts := rfl
    rw [hunf]
    by_cases h2i : 2 * i ≤ n
    · rw [if_pos h2i]
      obtain ⟨hc_or, hc_le, hcd1, hcd2⟩ := heapChild_cases v ts pl n i h2i
      by_cases hsw :
          vat v ts (pl + i - 1) < vat v ts (pl + heapChild v ts pl n i - 1)
      · rw [if_pos hsw]
        set c := heapChild v ts pl n i with hcdef
        have hic : i < c := by rcases hc_or with h | h <;> omega
        have hin : i ≤ n := by omega
        have hb_i : pl + i - 1 < ts.length := by omega
        have hb_c : pl + c - 1 < ts.length := by omega
        set tsa := swapi ts (pl + i - 1) (pl + c - 1) with htsa
        have hlena : tsa.length = ts.length := by
          rw [htsa]; exact swapi_length ts _ _
        have hheap_a : ∀ j, c < j → heapProp v pl n tsa j := by
          intro j hj
          obtain ⟨p1, p2⟩ := hheap j (by omega)
          constructor
          · intro hg
            have e1 : vat v tsa (pl + 2 * j - 1) = vat v ts (pl + 2 * j - 1) := by
              rw [htsa]
              exact vat_swapi_other v ts _ _ _ (by omega) (by omega)
            have e2 : vat v tsa (pl + j - 1) = vat v ts (pl + j - 1) := by
              rw [htsa]
              exact vat_swapi_other v ts _ _ _ (by omega) (by omega)
            rw [e1, e2]
            exact p1 hg
          · intro hg
            have e1 : vat v tsa (pl + 2 * j) = vat v ts (pl + 2 * j) := by
              rw [htsa]
              exact vat_swapi_other v ts _ _ _ (by omega) (by omega)
            have e2 : vat v tsa (pl + j - 1) = vat v ts (pl + j - 1) := by
              rw [htsa]
              exact vat_swapi_other v ts _ _ _ (by omega) (by omega)
            rw [e1, e2]
            exact p2 hg
        obtain ⟨R1, R2a, R2b, R3, R4⟩ := ih tsa c (by omega) (by omega)
          (by rw [hlena]; exact hlen) hheap_a
        have hC2a : ∀ x, x < pl ∨ pl + n ≤ x →
            geti (siftDown v pl n f tsa c) x = geti ts x := by
          intro x hx
          rw [R2a x hx, htsa]
          exact geti_swapi_other ts _ _ x (by omega) (by omega)
        have hC2b : ∀ j, 1 ≤ j → ¬ inSub i j →
            geti (siftDown v pl n f tsa c) (pl + j - 1) = geti ts (pl + j - 1) := by
          intro j hj hns
          have hji : j ≠ i := fun h => hns (by rw [h]; exact inSub_self i)
          have hjc : j ≠ c := fun h =>
            hns (by rw [h]; exact inSub_child hc_or (inSub_self c))
          have hnsc : ¬ inSub c j := fun h => hns (inSub_child hc_or h)
          rw [R2b j hj hnsc, htsa]
          exact geti_swapi_other ts _ _ _ (by omega) (by omega)
        have hC3 : (siftDown v pl n f tsa c).length = ts.length := by
          rw [R3, hlena]
        have hfin_i : geti (siftDown v pl n f tsa c) (pl + i - 1) =
            geti ts (pl + c - 1) := by
          rw [R2b i hi (not_inSub_of_lt hic), htsa]
          exact geti_swapi_fst ts _ _ hb_i hb_c
        have hfin : vat v (siftDown v pl n f tsa c) (pl + i - 1) =
            vat v ts (pl + c - 1) := by
          unfold vat
          rw [hfin_i]
        have hchild_bound : vat v (siftDown v pl n f tsa c) (pl + c - 1) ≤
            vat v ts (pl + c - 1) := by
          rcases R4 with h | ⟨h2c, h⟩
          · rw [h, htsa, vat_swapi_snd v ts _ _ hb_i hb_c]
            exact le_of_lt hsw
          · rw [h]
            obtain ⟨hcc_or, hcc_le, _, _⟩ := heapChild_cases v tsa pl n c h2c
            have hne1 : pl + heapChild v tsa pl n c - 1 ≠ pl + i - 1 := by
              rcases hcc_or with h' | h' <;> omega
            have hne2 : pl + heapChild v tsa pl n c - 1 ≠ pl + c - 1 := by
              rcases hcc_or with h' | h' <;> omega
            have hvcc : vat v tsa (pl + heapChild v tsa pl n c - 1) =
                vat v ts (pl + heapChild v tsa pl n c - 1) :=
              vat_swapi_other v ts _ _ _ hne1 hne2
            rw [hvcc]
            obtain ⟨q1, q2⟩ := hheap c hic
            rcases hcc_or with hcc | hcc
            · rw [hcc]
              exact q1 (by omega)
            · rw [hcc]
              have hp : pl + (2 * c + 1) - 1 = pl + 2 * c := by omega
              rw [hp]
              exact q2 (by omega)
        have hsib_bound : ∀ s, (s = 2 * i ∨ s = 2 * i + 1) → s ≠ c → s ≤ n →
            vat v (siftDown v pl n f tsa c) (pl + s - 1) ≤
              vat v ts (pl + c - 1) := by
          intro s hs_or hsne hsn
          have hns : ¬ inSub c s := not_inSub_sibling hi hc_or hs_or hsne
          have hv : vat v (siftDown v pl n f tsa c) (pl + s - 1) =
              vat v ts (pl + s - 1) := by
            unfold vat
            rw [R2b s (by rcases hs_or with h | h <;> omega) hns, htsa]
            rw [geti_swapi_other ts _ _ _
              (by rcases hs_or with h | h <;> omega)
              (by rcases hs_or with h | h <;> omega)]
          rw [hv]
          rcases hs_or with rfl | rfl
          · exact hcd1
          · have hp : pl + (2 * i + 1) - 1 = pl + 2 * i := by omega
            rw [hp]
            exact hcd2 (by omega)
        have hC1 : ∀ j, i ≤ j → heapProp v pl n (siftDown v pl n f tsa c) j := by
          intro j hj
          rcases lt_trichotomy j c with hjc | rfl | hjc
          · rcases Nat.eq_or_lt_of_le hj with rfl | hij
            · -- j = i : the sifted root
              constructor
              · intro hg
                rw [hfin]
                rcases hc_or with hce | hco
                · have hpp : pl + 2 * i - 1 = pl + c - 1 := by omega
                  rw [hpp]
                  exact hchild_bound
                · exact hsib_bound (2 * i) (Or.inl rfl) (by omega) hg
              · intro hg
                rw [hfin]
                rcases hc_or with hce | hco
                · have hs := hsib_bound (2 * i + 1) (Or.inr rfl) (by omega) hg
                  have hp : pl + (2 * i + 1) - 1 = pl + 2 * i := by omega
                  rwa [hp] at hs
                · have hpp : pl + 2 * i = pl + c - 1 := by omega
                  rw [hpp]
                  exact hchild_bound
            · -- i < j < c : untouched intermediate node
              obtain ⟨hn1, hn2⟩ := not_inSub_between hc_or hij hjc
              have e1 : vat v (siftDown v pl n f tsa c) (pl + j - 1) =
                  vat v ts (pl + j - 1) := by
                unfold vat
                rw [R2b j (by omega) (not_inSub_of_lt hjc), htsa,
                  geti_swapi_other ts _ _ _ (by omega)
                    (by rcases hc_or with h | h <;> omega)]
              have e2 : vat v (siftDown v pl n f tsa c) (pl + 2 * j - 1) =
                  vat v ts (pl + 2 * j - 1) := by
                unfold vat
                rw [R2b (2 * j) (by omega) hn1, htsa,
                  geti_swapi_other ts _ _ _ (by omega)
                    (by rcases hc_or with h | h <;> omega)]
              have e3 : vat v (siftDown v pl n f tsa c) (pl + 2 * j) =
                  vat v ts (pl + 2 * j) := by
                have hp : pl + (2 * j + 1) - 1 = pl + 2 * j := by omega
                unfold vat
                rw [← hp, R2b (2 * j + 1) (by omega) hn2, htsa,
                  geti_swapi_other ts _ _ _ (by omega)
                    (by rcases hc_or with h | h <;> omega)]
              obtain ⟨p1, p2⟩ := hheap j hij
              exact ⟨fun hg => by rw [e2, e1]; exact p1 hg,
                fun hg => by rw [e3, e1]; exact p2 hg⟩
          · exact R1 c le_rfl
          · exact R1 j (le_of_lt hjc)
        exact ⟨hC1, hC2a, hC2b, hC3, Or.inr ⟨h2i, hfin⟩⟩
      · rw [if_neg hsw]
        refine ⟨?_, fun x _ => rfl, fun j _ _ => rfl, rfl, Or.inl rfl⟩
        intro j hj
        rcases Nat.eq_or_lt_of_le hj with rfl | hij
        · have hroot : vat v ts (pl + heapChild v ts pl n i - 1) ≤
              vat v ts (pl + i - 1) := le_of_not_lt hsw
          constructor
          · intro hg
            exact le_trans hcd1 hroot
          · intro hg
            exact le_trans (hcd2 (by omega)) hroot
        · exact hheap j hij
    · rw [if_neg h2i]
      refine ⟨?_, fun x _ => rfl, fun j _ _ => rfl, rfl, Or.inl rfl⟩
      intro j hj
      rcases Nat.eq_or_lt_of_le hj with rfl | hij
      · exact ⟨fun hg => absurd hg h2i,
          fun hg => absurd (show 2 * i ≤ n by omega) h2i⟩
      · exact hheap j hij

theorem heapLoop1_spec (v : List ℚ) (pl n : ℕ) :
    ∀ (fuel : ℕ) (ts : List ℕ) (l : ℕ),
      l ≤ fuel → pl + n ≤ ts.length →
      (∀ j, l < j → heapProp v pl n ts j) →
      (∀ j, 0 < j → heapProp v pl n (heapLoop1 v pl n fuel ts l) j) ∧
      (∀ x, x < pl ∨ pl + n ≤ x →
        geti (heapLoop1 v pl n fuel ts l) x = geti ts x) ∧
      (heapLoop1 v pl n fuel ts l).length = ts.length := by
  intro fuel
  induction fuel with
  | zero =>
    intro ts l hl hlen hheap
    have hl0 : l = 0 := by omega
    subst hl0
    exact ⟨fun j hj => hheap j hj, fun x _ => rfl, rfl⟩
  | succ f ih =>
    intro ts l hl hlen hheap
    have hunf : heapLoop1 v pl n (f + 1) ts l =
        if l = 0 then ts
        else heapLoop1 v pl n f (siftDown v pl n (n + 2) ts l) (l - 1) := rfl
    rw [hunf]
    split_ifs with hl0
    · subst hl0
      exact ⟨fun j hj => hheap j hj, fun x _ => rfl, rfl⟩
    · obtain ⟨S1, S2a, S2b, S3, S4⟩ :=
        siftDown_spec v pl n (n + 2) ts l (by omega) (by omega) hlen hheap
      obtain ⟨T1, T2, T3⟩ := ih (siftDown v pl n (n + 2) ts l) (l - 1)
        (by omega) (by rw [S3]; exact hlen)
        (fun j hj => S1 j (by omega))
      exact ⟨T1, fun x hx => (T2 x hx).trans (S2a x hx), by rw [T3, S3]⟩

/-- In a full max-heap the root key dominates every key of the heap. -/
theorem heap_root_max (v : List ℚ) (pl n : ℕ) (ts : List ℕ)
    (hheap : ∀ j, 0 < j → heapProp v pl n ts j) :
    ∀ j, 0 < j → j ≤ n → vat v ts (pl + j - 1) ≤ vat v ts pl := by
  have H : ∀ m k, k ≤ m → 0 < k → k ≤ n → vat v ts (pl + k - 1) ≤ vat v ts pl := by
    intro m
    induction m with
    | zero => intro k hk h0 _; exact absurd h0 (by omega)
    | succ m ih =>
      intro k hk h0 hkn
      by_cases hk1 : k = 1
      · subst hk1
        have hp : pl + 1 - 1 = pl := by omega
        rw [hp]
      · obtain ⟨q1, q2⟩ := hheap (k / 2) (by omega)
        have hstep : vat v ts (pl + k - 1) ≤ vat v ts (pl + k / 2 - 1) := by
          rcases Nat.even_or_odd k with he | ho
          · obtain ⟨m', hm'⟩ := he
            have hk2 : 2 * (k / 2) = k := by omega
            have hq := q1 (by omega)
            rwa [hk2] at hq
          · obtain ⟨m', hm'⟩ := ho
            have hk2 : 2 * (k / 2) + 1 = k := by omega
            have hq := q2 (by omega)
            have hpp : pl + 2 * (k / 2) = pl + k - 1 := by omega
            rwa [hpp] at hq
        exact le_trans hstep (ih (k / 2) (by omega) (by omega) (by omega))
  exact fun j => H j j le_rfl

theorem heapLoop2_spec (v : List ℚ) (pl N : ℕ) :
    ∀ (fuel : ℕ) (ts : List ℕ) (n : ℕ),
      n ≤ fuel → 1 ≤ n → n ≤ N → pl + N ≤ ts.length →
      (∀ j, 0 < j → heapProp v pl n ts j) →
      (∀ x y, n < x → x ≤ y → y ≤ N →
        vat v ts (pl + x - 1) ≤ vat v ts (pl + y - 1)) →
      (∀ x y, 0 < x → x ≤ n → n < y → y ≤ N →
        vat v ts (pl + x - 1) ≤ vat v ts (pl + y - 1)) →
      (∀ x y, 0 < x → x ≤ y → y ≤ N →
        vat v (heapLoop2 v pl fuel ts n) (pl + x - 1) ≤
          vat v (heapLoop2 v pl fuel ts n) (pl + y - 1)) ∧
      (∀ p, p < pl ∨ pl + n ≤ p → geti (heapLoop2 v pl fuel ts n) p = geti ts p) ∧
      (heapLoop2 v pl fuel ts n).length = ts.length := by
  intro fuel
  induction fuel with
  | zero =>
    intro ts n hfuel h1 hN hlen hheap htail hcross
    exact absurd h1 (by omega)
  | succ f ih =>
    intro ts n hfuel h1 hN hlen hheap htail hcross
    have hunf : heapLoop2 v pl (f + 1) ts n =
        if n ≤ 1 then ts
        else heapLoop2 v pl f
          (siftDown v pl (n - 1) (n + 2) (swapi ts (pl + n - 1) pl) 1) (n - 1) := rfl
    rw [hunf]
    split_ifs with hn1
    · refine ⟨?_, fun p _ => rfl, rfl⟩
      intro x y hx hxy hyN
      rcases Nat.eq_or_lt_of_le hxy with rfl | hlt
      · exact le_refl _
      · by_cases hxn : x ≤ n
        · exact hcross x y hx hxn (by omega) hyN
        · exact htail x y (by omega) (by omega) hyN
    · have hn2 : 2 ≤ n := by omega
      have hb1 : pl + n - 1 < ts.length := by omega
      have hb2 : pl < ts.length := by omega
      set tsa := swapi ts (pl + n - 1) pl with htsa
      have hlen_a : tsa.length = ts.length := by
        rw [htsa]; exact swapi_length ts _ _
      have hheap_a : ∀ j, 1 < j → heapProp v pl (n - 1) tsa j := by
        intro j hj
        obtain ⟨q1, q2⟩ := hheap j (by omega)
        constructor
        · intro hg
          have e1 : vat v tsa (pl + 2 * j - 1) = vat v ts (pl + 2 * j - 1) := by
            rw [htsa]
            exact vat_swapi_other v ts _ _ _ (by omega) (by omega)
          have e2 : vat v tsa (pl + j - 1) = vat v ts (pl + j - 1) := by
            rw [htsa]
            exact vat_swapi_other v ts _ _ _ (by omega) (by omega)
          rw [e1, e2]
          exact q1 (by omega)
        · intro hg
          have e1 : vat v tsa (pl + 2 * j) = vat v ts (pl + 2 * j) := by
            rw [htsa]
            exact vat_swapi_other v ts _ _ _ (by omega) (by omega)
          have e2 : vat v tsa (pl + j - 1) = vat v ts (pl + j - 1) := by
            rw [htsa]
            exact vat_swapi_other v ts _ _ _ (by omega) (by omega)
          rw [e1, e2]
          exact q2 (by omega)
      obtain ⟨S1, S2a, S2b, S3, S4⟩ := siftDown_spec v pl (n - 1) (n + 2) tsa 1
        le_rfl (by omega) (by omega) hheap_a
      set tsb := siftDown v pl (n - 1) (n + 2) tsa 1 with htsb
      have hroot := heap_root_max v pl n ts hheap
      have hval_n : vat v tsb (pl + n - 1) = vat v ts pl := by
        unfold vat
        rw [S2a (pl + n - 1) (Or.inr (by omega)), htsa,
          geti_swapi_fst ts _ _ hb1 hb2]
      have hval_tail : ∀ y, n < y → geti tsb (pl + y - 1) = geti ts (pl + y - 1) := by
        intro y hy
        rw [S2a (pl + y - 1) (Or.inr (by omega)), htsa,
          geti_swapi_other ts _ _ _ (by omega) (by omega)]
      have htail2 : ∀ x y, n - 1 < x → x ≤ y → y ≤ N →
          vat v tsb (pl + x - 1) ≤ vat v tsb (pl + y - 1) := by
        intro x y hx hxy hyN
        have hx' : n ≤ x := by omega
        rcases Nat.eq_or_lt_of_le hx' with heq | hxn
        · rcases Nat.eq_or_lt_of_le hxy with rfl | hyy
          · exact le_refl _
          · have hxn' : x = n := heq.symm
            have hyy' : n < y := by omega
            have ey : vat v tsb (pl + y - 1) = vat v ts (pl + y - 1) := by
              unfold vat
              rw [hval_tail y hyy']
            rw [hxn', hval_n, ey]
            have hc := hcross 1 y (by omega) (by omega) hyy' hyN
            have hpp : pl + 1 - 1 = pl := by omega
            rwa [hpp] at hc
        · have ex : vat v tsb (pl + x - 1) = vat v ts (pl + x - 1) := by
            unfold vat
            rw [hval_tail x hxn]
          have ey : vat v tsb (pl + y - 1) = vat v ts (pl + y - 1) := by
            unfold vat
            rw [hval_tail y (by omega)]
          rw [ex, ey]
          exact htail x y hxn hxy hyN
      have hout_sl : ∀ k, k < pl ∨ pl + n - 2 < k → geti tsb k = geti tsa k := by
        intro k hk
        exact S2a k (by omega)
      have hperm_b : tsb.Perm tsa := by
        rw [htsb]
        exact siftDown_perm v pl (n - 1) (n + 2) tsa 1
      have hsource : ∀ x, 0 < x → x ≤ n - 1 →
          ∃ j, 0 < j ∧ j ≤ n ∧ vat v tsb (pl + x - 1) = vat v ts (pl + j - 1) := by
        intro x hx hxn
        obtain ⟨k, hk1, hk2, hk3⟩ := exists_source tsa tsb pl (pl + n - 2)
          hperm_b S3 hout_sl (by omega) (pl + x - 1) (by omega) (by omega)
        by_cases hkpl : k = pl
        · refine ⟨n, by omega, le_refl n, ?_⟩
          unfold vat
          rw [hk3, hkpl, htsa, geti_swapi_snd ts _ _ hb1 hb2]
        · refine ⟨k - pl + 1, by omega, by omega, ?_⟩
          unfold vat
          rw [hk3, htsa, geti_swapi_other ts _ _ _ (by omega) (by omega)]
          have hkk : pl + (k - pl + 1) - 1 = k := by omega
          rw [hkk]
      have hcross2 : ∀ x y, 0 < x → x ≤ n - 1 → n - 1 < y → y ≤ N →
          vat v tsb (pl + x - 1) ≤ vat v tsb (pl + y - 1) := by
        intro x y hx hxn hy hyN
        obtain ⟨j, hj1, hj2, hj3⟩ := hsource x hx hxn
        rw [hj3]
        have hyn : n ≤ y := by omega
        rcases Nat.eq_or_lt_of_le hyn with heq | hlt
        · have hyx : pl + y - 1 = pl + n - 1 := by omega
          rw [hyx, hval_n]
          exact hroot j hj1 hj2
        · have ey : vat v tsb (pl + y - 1) = vat v ts (pl + y - 1) := by
            unfold vat
            rw [hval_tail y hlt]
          rw [ey]
          exact hcross j y hj1 hj2 hlt hyN
      obtain ⟨T1, T2, T3⟩ := ih tsb (n - 1) (by omega) (by omega) (by omega)
        (by rw [S3, hlen_a]; exact hlen)
        (fun j hj => S1 j hj) htail2 hcross2
      refine ⟨T1, ?_, by rw [T3, S3, hlen_a]⟩
      intro p hp
      rw [T2 p (by omega), S2a p (by omega), htsa,
        geti_swapi_other ts _ _ _ (by omega) (by omega)]

theorem aheapsortSeg_spec (v : List ℚ) (ts : List ℕ) (pl pr : ℕ)
    (hplr : pl ≤ pr) (hpr : pr < ts.length) :
    (∀ j k, pl ≤ j → j ≤ k → k ≤ pr →
      vat v (aheapsortSeg v ts pl pr) j ≤ vat v (aheapsortSeg v ts pl pr) k) ∧
    (∀ x, x < pl ∨ pr < x → geti (aheapsortSeg v ts pl pr) x = geti ts x) ∧
    (aheapsortSeg v ts pl pr).length = ts.length := by
  have hN : pl + (pr - pl + 1) ≤ ts.length := by omega
  obtain ⟨H1, H2, H3⟩ := heapLoop1_spec v pl (pr - pl + 1) (pr - pl + 3) ts
    ((pr - pl + 1) / 2) (by omega) hN
    (fun j hj => ⟨fun hg => absurd hg (by omega), fun hg => absurd hg (by omega)⟩)
  obtain ⟨T1, T2, T3⟩ := heapLoop2_spec v pl (pr - pl + 1) (pr - pl + 3)
    (heapLoop1 v pl (pr - pl + 1) (pr - pl + 3) ts ((pr - pl + 1) / 2))
    (pr - pl + 1) (by omega) (by omega) le_rfl (by rw [H3]; exact hN) H1
    (by intro x y hx hxy hyN; exact absurd hyN (by omega))
    (by intro x y hx hxn hy hyN; exact absurd hyN (by omega))
  unfold aheapsortSeg
  refine ⟨?_, ?_, by rw [T3, H3]⟩
  · intro j k hj hjk hk
    have hT := T1 (j - pl + 1) (k - pl + 1) (by omega) (by omega) (by omega)
    have hj2 : pl + (j - pl + 1) - 1 = j := by omega
    have hk2 : pl + (k - pl + 1) - 1 = k := by omega
    rwa [hj2, hk2] at hT
  · intro x hx
    rw [T2 x (by omega), H2 x (by omega)]

/-! ### Driver correctness -/

/-- Membership of a position in a (possibly empty) pending segment. -/
def InSeg (s : ℕ × ℕ) (x : ℕ) : Prop := s.1 ≤ x ∧ x ≤ s.2

theorem inSeg_mk {l r x : ℕ} : InSeg (l, r) x ↔ l ≤ x ∧ x ≤ r := Iff.rfl

/-- Weight of a pending segment in the driver's termination measure. -/
def segW (s : ℕ × ℕ) : ℕ := 2 * (s.2 + 1 - s.1) + 1

theorem segW_mk (a b : ℕ) : segW (a, b) = 2 * (b + 1 - a) + 1 := rfl

/-- Re-establishing the pending-segments invariant after sorting the
current segment `[pl, pr]` in place. -/
theorem resort_P3 (v : List ℚ) (ts ts2 : List ℕ) (pl pr : ℕ)
    (stack : List (ℕ × ℕ))
    (hlen : ts2.length = ts.length)
    (hperm : ts2.Perm ts)
    (hout : ∀ k, k < pl ∨ pr < k → geti ts2 k = geti ts k)
    (hsort : ∀ j k, pl ≤ j → j ≤ k → k ≤ pr → vat v ts2 j ≤ vat v ts2 k)
    (hpr : pr < ts.length)
    (hdisj : ∀ s ∈ stack, ∀ z, InSeg (pl, pr) z → ¬ InSeg s z)
    (hP3 : ∀ x y, x < y → y < ts.length →
      (¬ ∃ s ∈ (pl, pr) :: stack, InSeg s x ∧ InSeg s y) →
      vat v ts x ≤ vat v ts y) :
    ∀ x y, x < y → y < ts.length →
      (¬ ∃ s ∈ stack, InSeg s x ∧ InSeg s y) → vat v ts2 x ≤ vat v ts2 y := by
  intro x y hxy hy hns
  by_cases hxin : pl ≤ x ∧ x ≤ pr
  · by_cases hyin : pl ≤ y ∧ y ≤ pr
    · exact hsort x y hxin.1 (le_of_lt hxy) hyin.2
    · have hypr : pr < y := by omega
      obtain ⟨j, hj1, hj2, hj3⟩ :=
        exists_source ts ts2 pl pr hperm hlen hout hpr x hxin.1 hxin.2
      have hvx : vat v ts2 x = vat v ts j := by unfold vat; rw [hj3]
      have hvy : vat v ts2 y = vat v ts y := by
        unfold vat; rw [hout y (Or.inr hypr)]
      rw [hvx, hvy]
      apply hP3 j y (by omega) hy
      rintro ⟨s, hs, hsj, hsy⟩
      rcases List.mem_cons.mp hs with rfl | hs'
      · rw [inSeg_mk] at hsy; omega
      · exact hdisj s hs' j (inSeg_mk.mpr ⟨hj1, hj2⟩) hsj
  · by_cases hyin : pl ≤ y ∧ y ≤ pr
    · have hxpl : x < pl := by omega
      obtain ⟨j, hj1, hj2, hj3⟩ :=
        exists_source ts ts2 pl pr hperm hlen hout hpr y hyin.1 hyin.2
      have hvy : vat v ts2 y = vat v ts j := by unfold vat; rw [hj3]
      have hvx : vat v ts2 x = vat v ts x := by
        unfold vat; rw [hout x (Or.inl hxpl)]
      rw [hvx, hvy]
      apply hP3 x j (by omega) (by omega)
      rintro ⟨s, hs, hsx, hsj⟩
      rcases List.mem_cons.mp hs with rfl | hs'
      · rw [inSeg_mk] at hsx; omega
      · exact hdisj s hs' j (inSeg_mk.mpr ⟨hj1, hj2⟩) hsj
    · have hvx : vat v ts2 x = vat v ts x := by
        unfold vat; rw [hout x (by omega)]
      have hvy : vat v ts2 y = vat v ts y := by
        unfold vat; rw [hout y (by omega)]
      rw [hvx, hvy]
      apply hP3 x y hxy hy
      rintro ⟨s, hs, hsx, hsy⟩
      rcases List.mem_cons.mp hs with rfl | hs'
      · rw [inSeg_mk] at hsx; exact hxin hsx
      · exact hns ⟨s, hs', hsx, hsy⟩

/-- Re-establishing the pending-segments invariant after one partition
step of `[pl, pr]` around the pivot position `pi`. -/
theorem partition_P3 (v : List ℚ) (ts ts2 : List ℕ) (pl pr pi : ℕ)
    (stack : List (ℕ × ℕ))
    (hlen : ts2.length = ts.length) (hperm : ts2.Perm ts)
    (hout : ∀ k, k < pl ∨ pr < k → geti ts2 k = geti ts k)
    (hpr : pr < ts.length) (hpl_pi : pl < pi) (hpi_pr : pi < pr)
    (hleft : ∀ k, pl ≤ k → k < pi → vat v ts2 k ≤ vat v ts2 pi)
    (hright : ∀ k, pi < k → k ≤ pr → vat v ts2 pi ≤ vat v ts2 k)
    (hdisj : ∀ s ∈ stack, ∀ z, InSeg (pl, pr) z → ¬ InSeg s z)
    (hP3 : ∀ x y, x < y → y < ts.length →
      (¬ ∃ s ∈ (pl, pr) :: stack, InSeg s x ∧ InSeg s y) →
      vat v ts x ≤ vat v ts y) :
    ∀ x y, x < y → y < ts.length →
      (¬ ∃ s ∈ (pl, pi - 1) :: (pi + 1, pr) :: stack, InSeg s x ∧ InSeg s y) →
      vat v ts2 x ≤ vat v ts2 y := by
  intro x y hxy hy hns
  by_cases hxin : pl ≤ x ∧ x ≤ pr
  · by_cases hyin : pl ≤ y ∧ y ≤ pr
    · by_cases hxpi : x < pi
      · by_cases hypi : y ≤ pi - 1
        · exact absurd ⟨(pl, pi - 1), List.mem_cons_self _ _,
            inSeg_mk.mpr ⟨hxin.1, by omega⟩, inSeg_mk.mpr ⟨hyin.1, hypi⟩⟩ hns
        · rcases Nat.eq_or_lt_of_le (show pi ≤ y by omega) with heq | hylt
          · rw [← heq]
            exact hleft x hxin.1 hxpi
          · exact le_trans (hleft x hxin.1 hxpi) (hright y hylt hyin.2)
      · by_cases hxeq : x = pi
        · subst hxeq
          exact hright y (by omega) hyin.2
        · exact absurd ⟨(pi + 1, pr),
            List.mem_cons_of_mem _ (List.mem_cons_self _ _),
            inSeg_mk.mpr ⟨by omega, hxin.2⟩,
            inSeg_mk.mpr ⟨by omega, hyin.2⟩⟩ hns
    · have hypr : pr < y := by omega
      obtain ⟨j, hj1, hj2, hj3⟩ :=
        exists_source ts ts2 pl pr hperm hlen hout hpr x hxin.1 hxin.2
      have hvx : vat v ts2 x = vat v ts j := by unfold vat; rw [hj3]
      have hvy : vat v ts2 y = vat v ts y := by
        unfold vat; rw [hout y (Or.inr hypr)]
      rw [hvx, hvy]
      apply hP3 j y (by omega) hy
      rintro ⟨s, hs, hsj, hsy⟩
      rcases List.mem_cons.mp hs with rfl | hs'
      · rw [inSeg_mk] at hsy; omega
      · exact hdisj s hs' j (inSeg_mk.mpr ⟨hj1, hj2⟩) hsj
  · by_cases hyin : pl ≤ y ∧ y ≤ pr
    · have hxpl : x < pl := by omega
      obtain ⟨j, hj1, hj2, hj3⟩ :=
        exists_source ts ts2 pl pr hperm hlen hout hpr y hyin.1 hyin.2
      have hvy : vat v ts2 y = vat v ts j := by unfold vat; rw [hj3]
      have hvx : vat v ts2 x = vat v ts x := by
        unfold vat; rw [hout x (Or.inl hxpl)]
      rw [hvx, hvy]
      apply hP3 x j (by omega) (by omega)
      rintro ⟨s, hs, hsx, hsj⟩
      rcases List.mem_cons.mp hs with rfl | hs'
      · rw [inSeg_mk] at hsx; omega
      · exact hdisj s hs' j (inSeg_mk.mpr ⟨hj1, hj2⟩) hsj
    · have hvx : vat v ts2 x = vat v ts x := by
        unfold vat; rw [hout x (by omega)]
      have hvy : vat v ts2 y = vat v ts y := by
        unfold vat; rw [hout y (by omega)]
      rw [hvx, hvy]
      apply hP3 x y hxy hy
      rintro ⟨s, hs, hsx, hsy⟩
      rcases List.mem_cons.mp hs with rfl | hs'
      · rw [inSeg_mk] at hsx; exact hxin hsx
      · refine hns ⟨s, ?_, hsx, hsy⟩
        exact List.mem_cons_of_mem _ (List.mem_cons_of_mem _ hs')

theorem introLoop_succ (v : List ℚ) (f : ℕ) (ts : List ℕ)
    (stack : List (ℕ × ℕ)) (depth : Int) (pl pr : ℕ) :
    introLoop v (f + 1) ts stack depth pl pr =
      if 15 < pr - pl then
        if depth < 0 then
          match stack with
          | [] => aheapsortSeg v ts pl pr
          | (l, r) :: st => introLoop v f (aheapsortSeg v ts pl pr) st depth l r
        else
          match partitionStep v ts pl pr with
          | (ts', pi) =>
            if pi - pl < pr - pi then
              introLoop v f ts' ((pi + 1, pr) :: stack) (depth - 1) pl (pi - 1)
            else
              introLoop v f ts' ((pl, pi - 1) :: stack) (depth - 1) (pi + 1) pr
      else
        match stack with
        | [] => insertionSortSeg v ts pl pr
        | (l, r) :: st =>
          introLoop v f (insertionSortSeg v ts pl pr) st depth l r := rfl

theorem introLoop_sorted (v : List ℚ) :
    ∀ (fuel : ℕ) (ts : List ℕ) (stack : List (ℕ × ℕ)) (depth : Int) (pl pr : ℕ),
      segW (pl, pr) + (stack.map segW).sum ≤ fuel →
      (∀ s ∈ (pl, pr) :: stack, s.2 < ts.length) →
      ((pl, pr) :: stack).Pairwise (fun s t => ∀ z, InSeg s z → ¬ InSeg t z) →
      (∀ x y, x < y → y < ts.length →
        (¬ ∃ s ∈ (pl, pr) :: stack, InSeg s x ∧ InSeg s y) →
        vat v ts x ≤ vat v ts y) →
      ∀ x y, x < y → y < ts.length →
        vat v (introLoop v fuel ts stack depth pl pr) x ≤
          vat v (introLoop v fuel ts stack depth pl pr) y := by
  intro fuel
  induction fuel with
  | zero =>
    intro ts stack depth pl pr hfuel hbounds hpw hP3 x y hxy hy
    exfalso
    rw [segW_mk] at hfuel
    omega
  | succ f ih =>
    intro ts stack depth pl pr hfuel hbounds hpw hP3
    have hprlen : pr < ts.length := hbounds (pl, pr) (List.mem_cons_self _ _)
    have hdisj : ∀ s ∈ stack, ∀ z, InSeg (pl, pr) z → ¬ InSeg s z :=
      fun s hs z hz => (List.pairwise_cons.mp hpw).1 s hs z hz
    have hpwt : stack.Pairwise (fun s t => ∀ z, InSeg s z → ¬ InSeg t z) :=
      (List.pairwise_cons.mp hpw).2
    rw [introLoop_succ]
    by_cases h15 : 15 < pr - pl
    · rw [if_pos h15]
      by_cases hd : depth < 0
      · rw [if_pos hd]
        obtain ⟨hsort_h, hout_h, hlen_h⟩ :=
          aheapsortSeg_spec v ts pl pr (by omega) hprlen
        have hperm_h : (aheapsortSeg v ts pl pr).Perm ts :=
          aheapsortSeg_perm v ts pl pr
        have hP3h := resort_P3 v ts (aheapsortSeg v ts pl pr) pl pr stack
          hlen_h hperm_h hout_h hsort_h hprlen hdisj hP3
        rcases stack with _ | ⟨⟨l, r⟩, st⟩
        · intro x y hxy hy
          refine hP3h x y hxy hy ?_
          rintro ⟨s, hs, -, -⟩
          cases hs
        · intro x y hxy hy
          refine ih (aheapsortSeg v ts pl pr) st depth l r ?_ ?_ ?_ ?_ x y hxy
            (by omega)
          · simp only [List.map_cons, List.sum_cons, segW_mk] at hfuel ⊢
            omega
          · intro s hs
            rw [hlen_h]
            exact hbounds s (List.mem_cons_of_mem _ hs)
          · exact (List.pairwise_cons.mp hpwt).2.cons (List.pairwise_cons.mp hpwt).1
          · exact fun a b hab hb hn => hP3h a b hab (by omega) hn
      · rw [if_neg hd]
        have hppm := partitionStep_perm v ts pl pr
        rcases hp : partitionStep v ts pl pr with ⟨tsp, pi⟩
        rw [hp] at hppm
        obtain ⟨hp1, hp2, hpleft, hpright, hpout, hplen⟩ :=
          partitionStep_spec v ts pl pr tsp pi hp h15 hprlen
        show ∀ x y, x < y → y < ts.length →
            vat v (if pi - pl < pr - pi then
                introLoop v f tsp ((pi + 1, pr) :: stack) (depth - 1) pl (pi - 1)
              else
                introLoop v f tsp ((pl, pi - 1) :: stack) (depth - 1) (pi + 1) pr)
              x ≤
            vat v (if pi - pl < pr - pi then
                introLoop v f tsp ((pi + 1, pr) :: stack) (depth - 1) pl (pi - 1)
              else
                introLoop v f tsp ((pl, pi - 1) :: stack) (depth - 1) (pi + 1) pr)
              y
        have hP3p := partition_P3 v ts tsp pl pr pi stack hplen hppm hpout
          hprlen hp1 hp2 hpleft hpright hdisj hP3
        have hsubL : ∀ z, InSeg (pl, pi - 1) z → InSeg (pl, pr) z := by
          intro z hz
          rw [inSeg_mk] at hz ⊢
          omega
        have hsubR : ∀ z, InSeg (pi + 1, pr) z → InSeg (pl, pr) z := by
          intro z hz
          rw [inSeg_mk] at hz ⊢
          omega
        by_cases h3 : pi - pl < pr - pi
        · rw [if_pos h3]
          intro x y hxy hy
          refine ih tsp ((pi + 1, pr) :: stack) (depth - 1) pl (pi - 1)
            ?_ ?_ ?_ ?_ x y hxy (by omega)
          · simp only [List.map_cons, List.sum_cons, segW_mk] at hfuel ⊢
            omega
          · intro s hs
            rw [hplen]
            rcases List.mem_cons.mp hs with rfl | hs'
            · show pi - 1 < ts.length
              omega
            · rcases List.mem_cons.mp hs' with rfl | hs''
              · exact hprlen
              · exact hbounds s (List.mem_cons_of_mem _ hs'')
          · refine List.Pairwise.cons ?_ (List.Pairwise.cons ?_ hpwt)
            · intro t ht z hz
              rcases List.mem_cons.mp ht with rfl | ht'
              · rw [inSeg_mk] at hz ⊢
                omega
              · exact hdisj t ht' z (hsubL z hz)
            · intro t ht z hz
              exact hdisj t ht z (hsubR z hz)
          · exact fun a b hab hb hn => hP3p a b hab (by omega) hn
        · rw [if_neg h3]
          intro x y hxy hy
          refine ih tsp ((pl, pi - 1) :: stack) (depth - 1) (pi + 1) pr
            ?_ ?_ ?_ ?_ x y hxy (by omega)
          · simp only [List.map_cons, List.sum_cons, segW_mk] at hfuel ⊢
            omega
          · intro s hs
            rw [hplen]
            rcases List.mem_cons.mp hs with rfl | hs'
            · exact hprlen
            · rcases List.mem_cons.mp hs' with rfl | hs''
              · show pi - 1 < ts.length
                omega
              · exact hbounds s (List.mem_cons_of_mem _ hs'')
          · refine List.Pairwise.cons ?_ (List.Pairwise.cons ?_ hpwt)
            · intro t ht z hz
              rcases List.mem_cons.mp ht with rfl | ht'
              · rw [inSeg_mk] at hz ⊢
                omega
              · exact hdisj t ht' z (hsubR z hz)
            · intro t ht z hz
              exact hdisj t ht z (hsubL z hz)
          · intro a b hab hb hn
            refine hP3p a b hab (by omega) ?_
            rintro ⟨s, hs, hx1, hy1⟩
            refine hn ⟨s, ?_, hx1, hy1⟩
            rcases List.mem_cons.mp hs with rfl | hs'
            · exact List.mem_cons_of_mem _ (List.mem_cons_self _ _)
            · rcases List.mem_cons.mp hs' with rfl | hs''
              · exact List.mem_cons_self _ _
              · exact List.mem_cons_of_mem _ (List.mem_cons_of_mem _ hs'')
    · rw [if_neg h15]
      have hperm_i : (insertionSortSeg v ts pl pr).Perm ts :=
        insertionSortSeg_perm v ts pl pr
      have hlen_i : (insertionSortSeg v ts pl pr).length = ts.length :=
        hperm_i.length_eq
      have hout_i : ∀ k, k < pl ∨ pr < k →
          geti (insertionSortSeg v ts pl pr) k = geti ts k :=
        fun k hk => geti_insertionSortSeg_outside v ts pl pr k hk
      have hsort_i := insertionSortSeg_sorted v ts pl pr hprlen
      have hP3i := resort_P3 v ts (insertionSortSeg v ts pl pr) pl pr stack
        hlen_i hperm_i hout_i hsort_i hprlen hdisj hP3
      rcases stack with _ | ⟨⟨l, r⟩, st⟩
      · intro x y hxy hy
        refine hP3i x y hxy hy ?_
        rintro ⟨s, hs, -, -⟩
        cases hs
      · intro x y hxy hy
        refine ih (insertionSortSeg v ts pl pr) st depth l r ?_ ?_ ?_ ?_ x y hxy
          (by omega)
        · simp only [List.map_cons, List.sum_cons, segW_mk] at hfuel ⊢
          omega
        · intro s hs
          rw [hlen_i]
          exact hbounds s (List.mem_cons_of_mem _ hs)
        · exact (List.pairwise_cons.mp hpwt).2.cons (List.pairwise_cons.mp hpwt).1
        · exact fun a b hab hb hn => hP3i a b hab (by omega) hn

/-- `npy_aquicksort` from the identity index array orders every score
array: the keys read along the output are non-decreasing. -/
theorem aquicksortArg_sorted (v : List ℚ) :
    ∀ x y, x < y → y < v.length →
      vat v (aquicksortArg v) x ≤ vat v (aquicksortArg v) y := by
  intro x y hxy hy
  have hvpos : 0 < v.length := by omega
  unfold aquicksortArg
  refine introLoop_sorted v (2 * v.length + 16) (List.range v.length) []
    _ 0 (v.length - 1) ?_ ?_ ?_ ?_ x y hxy
    (by rw [List.length_range]; exact hy)
  · rw [segW_mk]
    simp only [List.map_nil, List.sum_nil, add_zero]
    omega
  · intro s hs
    rcases List.mem_cons.mp hs with rfl | hs'
    · show v.length - 1 < (List.range v.length).length
      rw [List.length_range]
      omega
    · cases hs'
  · refine List.pairwise_cons.mpr ⟨?_, List.Pairwise.nil⟩
    intro t ht
    cases ht
  · intro a b hab hb hns
    exfalso
    apply hns
    rw [List.length_range] at hb
    exact ⟨(0, v.length - 1), List.mem_cons_self _ _,
      inSeg_mk.mpr ⟨Nat.zero_le a, by omega⟩,
      inSeg_mk.mpr ⟨Nat.zero_le b, by omega⟩⟩

/-- C7, amended.  `order_similarity` returns, for every score array, a
deterministic permutation of the candidate indices along which the
original scores are non-increasing (descending score order); for score
arrays of at most 16 candidates — where numpy's introsort runs its
stable insertion path — ties are additionally broken by original
candidate order; for longer arrays the default `kind='quicksort'`
introsort does not break ties by original candidate order (see the
counterexample). -/
theorem order_similarity_ranked_order (s : List ℚ) :
    (order_similarity s).Perm (List.range s.length) ∧
    (order_similarity s).Pairwise (fun i j => s.getD j 0 ≤ s.getD i 0) ∧
    (s.length ≤ 16 → (order_similarity s).Pairwise (RankLE s)) := by
  refine ⟨?_, ?_, ?_⟩
  · unfold order_similarity
    have hp := aquicksortArg_perm (s.map (fun x => -x))
    rwa [List.length_map] at hp
  · unfold order_similarity
    have hlen : (aquicksortArg (s.map (fun x => -x))).length = s.length := by
      have h := (aquicksortArg_perm (s.map (fun x => -x))).length_eq
      rwa [List.length_range, List.length_map] at h
    rw [List.pairwise_iff_getElem]
    intro a b ha hb hab
    have hs := aquicksortArg_sorted (s.map (fun x => -x)) a b hab
      (by rw [List.length_map]; omega)
    unfold vat geti at hs
    rw [List.getD_eq_getElem _ _ ha, List.getD_eq_getElem _ _ hb,
      getD_map_neg, getD_map_neg] at hs
    exact le_of_neg_le_neg hs
  · intro h16
    unfold order_similarity
    rw [aquicksortArg_small _ (by rwa [List.length_map]), List.length_map]
    have hpw : (insPassRev (s.map (fun x => -x)) []
        (List.range s.length)).Pairwise (IdxLE (s.map (fun x => -x))) := by
      refine insPassRev_pairwise _ (List.range s.length) [] List.Pairwise.nil
        (List.pairwise_lt_range _) ?_
      intro y hy
      cases hy
    exact hpw.imp (fun hab => (idxLE_map_neg s _ _).mp hab)

/-- Witness for `order_similarity_ranked_order` at the concrete scores
`[1, 2, 2, 0]` (length 4 ≤ 16): the output is a permutation of the four
candidate indices, its scores are non-increasing, and the tied
candidates keep original order. -/
theorem order_similarity_ranked_order_witness :
    (order_similarity [(1 : ℚ), 2, 2, 0]).Perm
      (List.range [(1 : ℚ), 2, 2, 0].length) ∧
    (order_similarity [(1 : ℚ), 2, 2, 0]).Pairwise
      (fun i j => [(1 : ℚ), 2, 2, 0].getD j 0 ≤ [(1 : ℚ), 2, 2, 0].getD i 0) ∧
    ([(1 : ℚ), 2, 2, 0].length ≤ 16 →
      (order_similarity [(1 : ℚ), 2, 2, 0]).Pairwise
        (RankLE [(1 : ℚ), 2, 2, 0])) :=
  order_similarity_ranked_order [(1 : ℚ), 2, 2, 0]
